import Mathlib

/-!
Verification development for the Telegram WebApp init-data checker
(`app/utils/telegram_auth.py`).

Python strings are modelled as `List Char` (Unicode scalar values, which is
exactly what UTF-8-encodable Python strings contain); byte strings as
`List Nat` with every element below 256.  Machine words in SHA-256 are `Nat`
reduced modulo `2 ^ 32`.  Library routines used by the source
(`urllib.parse.parse_qsl`, `urllib.parse.unquote`, `hashlib.sha256`,
`hmac.new(..., sha256)`, `json.loads`/`json.dumps`, `int(...)`,
`str.replace`) are modelled byte-for-byte from their CPython semantics.
All definitions are executable and kernel-reducible (fuel is used where the
recursion is not structural).
-/

set_option maxRecDepth 100000

/-- Python strings are sequences of Unicode scalar values. -/
abbrev PyStr := List Char

/-- Convert a Lean string literal to the `PyStr` model. -/
def ofStr (s : String) : PyStr := s.data

/-- Concatenation of the images of a function over a list. -/
def catMap (f : α → List β) : List α → List β
  | [] => []
  | a :: as => f a ++ catMap f as

/-! ### UTF-8 encoding and decoding (CPython `str.encode("utf-8")` and
`bytes.decode("utf-8", errors="replace")`). -/

/-- UTF-8 encoding of one Unicode scalar value, by code-point range. -/
def utf8EncodeChar (c : Char) : List Nat :=
  let n := c.toNat
  if n < 0x80 then [n]
  else if n < 0x800 then [0xC0 + n / 64, 0x80 + n % 64]
  else if n < 0x10000 then
    [0xE0 + n / 4096, 0x80 + n / 64 % 64, 0x80 + n % 64]
  else
    [0xF0 + n / 262144, 0x80 + n / 4096 % 64, 0x80 + n / 64 % 64, 0x80 + n % 64]

/-- UTF-8 encoding of a whole string. -/
def utf8Encode (s : PyStr) : List Nat := catMap utf8EncodeChar s

/-- The U+FFFD replacement character used by `errors="replace"` decoding. -/
def replacementChar : Char := Char.ofNat 0xFFFD

/-- State of the streaming UTF-8 decoder: at a sequence boundary, or
expecting one, two or three more continuation bytes.  `acc` is the partial
code point; `lo`/`hi` bound the next continuation byte, encoding the
overlong-form and surrogate-range restrictions of CPython's strict
validation (E0 A0-BF, ED 80-9F, F0 90-BF, F4 80-8F). -/
inductive Utf8State where
  | start
  | need1 (acc : Nat)
  | need2 (acc lo hi : Nat)
  | need3 (acc lo hi : Nat)

/-- Decoder transition for one byte at a sequence boundary. -/
def startStep (b : Nat) : List Char × Utf8State :=
  if b < 0x80 then ([Char.ofNat b], .start)
  else if 0xC2 ≤ b ∧ b ≤ 0xDF then ([], .need1 (b - 0xC0))
  else if 0xE0 ≤ b ∧ b ≤ 0xEF then
    ([], .need2 (b - 0xE0) (if b = 0xE0 then 0xA0 else 0x80) (if b = 0xED then 0x9F else 0xBF))
  else if 0xF0 ≤ b ∧ b ≤ 0xF4 then
    ([], .need3 (b - 0xF0) (if b = 0xF0 then 0x90 else 0x80) (if b = 0xF4 then 0x8F else 0xBF))
  else ([replacementChar], .start)

/-- Decoder transition for one byte: an invalid continuation byte emits a
replacement character for the broken sequence and is reprocessed as a
sequence start, as CPython's `errors="replace"` handling does. -/
def byteStep : Utf8State → Nat → List Char × Utf8State
  | .start, b => startStep b
  | .need1 acc, b =>
    if 0x80 ≤ b ∧ b ≤ 0xBF then ([Char.ofNat (acc * 64 + (b - 0x80))], .start)
    else (replacementChar :: (startStep b).1, (startStep b).2)
  | .need2 acc lo hi, b =>
    if lo ≤ b ∧ b ≤ hi then ([], .need1 (acc * 64 + (b - 0x80)))
    else (replacementChar :: (startStep b).1, (startStep b).2)
  | .need3 acc lo hi, b =>
    if lo ≤ b ∧ b ≤ hi then ([], .need2 (acc * 64 + (b - 0x80)) 0x80 0xBF)
    else (replacementChar :: (startStep b).1, (startStep b).2)

/-- An incomplete trailing sequence decodes to one replacement character. -/
def flushState : Utf8State → List Char
  | .start => []
  | _ => [replacementChar]

/-- Run of the streaming decoder. -/
def utf8Run : List Nat → Utf8State → List Char
  | [], st => flushState st
  | b :: rest, st => (byteStep st b).1 ++ utf8Run rest (byteStep st b).2

/-- UTF-8 decoding with replacement of invalid sequences
(`bytes.decode("utf-8", errors="replace")`). -/
def utf8DecodeReplace (bs : List Nat) : List Char := utf8Run bs .start

/-! ### Percent decoding (`urllib.parse.unquote` with `errors="replace"`). -/

/-- Decidable test for an ASCII hexadecimal digit, as accepted by
`urllib.parse`'s `_hextobyte` table (both cases). -/
def isHexDigitCh (c : Char) : Bool :=
  ('0' ≤ c ∧ c ≤ '9') ∨ ('a' ≤ c ∧ c ≤ 'f') ∨ ('A' ≤ c ∧ c ≤ 'F')

/-- Numeric value of an ASCII hexadecimal digit. -/
def hexDigitVal (c : Char) : Nat :=
  if '0' ≤ c ∧ c ≤ '9' then c.toNat - 48
  else if 'a' ≤ c ∧ c ≤ 'f' then c.toNat - 87
  else if 'A' ≤ c ∧ c ≤ 'F' then c.toNat - 55
  else 0

/-- Partially read percent sequence: nothing pending, a bare `%`, or `%`
followed by one hex digit. -/
inductive PctPending where
  | none0
  | pct
  | pctDigit (h1 : Char)

/-- Bytes a pending partial percent sequence contributes literally when it
turns out not to be a valid `%XX` escape (already in reversed order for the
reversed run buffer). -/
def pendingBytes : PctPending → List Nat
  | .none0 => []
  | .pct => [37]
  | .pctDigit h1 => [h1.toNat, 37]

/-- Worker for `unquote`: `buf` is the reversed pending byte run (literal
ASCII bytes and percent-decoded bytes) that is decoded as UTF-8 when the
run ends, exactly as CPython decodes each maximal ASCII run at once; the
`PctPending` state carries a partially read `%XX` escape. -/
def unquoteAux : List Char → PctPending → List Nat → List Char
  | [], p, buf => utf8DecodeReplace (pendingBytes p ++ buf).reverse
  | c :: rest, .none0, buf =>
    if c = '%' then unquoteAux rest .pct buf
    else if c.toNat < 0x80 then unquoteAux rest .none0 (c.toNat :: buf)
    else utf8DecodeReplace buf.reverse ++ c :: unquoteAux rest .none0 []
  | c :: rest, .pct, buf =>
    if c = '%' then unquoteAux rest .pct (37 :: buf)
    else if isHexDigitCh c then unquoteAux rest (.pctDigit c) buf
    else if c.toNat < 0x80 then unquoteAux rest .none0 (c.toNat :: 37 :: buf)
    else utf8DecodeReplace (37 :: buf).reverse ++ c :: unquoteAux rest .none0 []
  | c :: rest, .pctDigit h1, buf =>
    if isHexDigitCh c then
      unquoteAux rest .none0 ((hexDigitVal h1 * 16 + hexDigitVal c) :: buf)
    else if c = '%' then unquoteAux rest .pct (h1.toNat :: 37 :: buf)
    else if c.toNat < 0x80 then unquoteAux rest .none0 (c.toNat :: h1.toNat :: 37 :: buf)
    else utf8DecodeReplace (h1.toNat :: 37 :: buf).reverse ++ c :: unquoteAux rest .none0 []

/-- Model of `urllib.parse.unquote(string)` (UTF-8, `errors="replace"`):
percent sequences inside ASCII runs are decoded to bytes and the byte run
is decoded as UTF-8; non-ASCII characters pass through unchanged. -/
def pyUnquote (s : PyStr) : PyStr := unquoteAux s .none0 []

/-! ### Query-string parsing (`urllib.parse.parse_qsl(s, keep_blank_values=True)`
followed by `dict(...)`). -/

/-- Prepend a character to the first segment of a split result. -/
def consHead (x : Char) : List (List Char) → List (List Char)
  | [] => [[x]]
  | r :: rs => (x :: r) :: rs

/-- Split a character list at every occurrence of `c`, keeping empty
segments, as Python `str.split(sep)` does. -/
def splitOnChar (c : Char) : List Char → List (List Char)
  | [] => [[]]
  | x :: rest =>
    if x = c then [] :: splitOnChar c rest
    else consHead x (splitOnChar c rest)

/-- Split at the first occurrence of `c`, as Python `str.split(sep, 1)`:
`none` when `c` does not occur. -/
def splitFirstCh (c : Char) : List Char → Option (List Char × List Char)
  | [] => none
  | x :: rest =>
    if x = c then some ([], rest)
    else (splitFirstCh c rest).map (fun p => (x :: p.1, p.2))

/-- Replace `+` by a space, the step `parse_qsl` applies before unquoting. -/
def plusToSpace (s : PyStr) : PyStr :=
  s.map (fun c => if c = '+' then ' ' else c)

/-- Handling of one `&`-separated segment in `parse_qsl` with
`keep_blank_values=True`: empty segments are skipped, a segment is split
at its first `=` (no `=` means a blank value), and plus-to-space plus
percent-decoding are applied to name and value. -/
def parseSeg (nv : PyStr) : Option (PyStr × PyStr) :=
  if nv = [] then none
  else
    match splitFirstCh '=' nv with
    | some (n, v) => some (pyUnquote (plusToSpace n), pyUnquote (plusToSpace v))
    | none => some (pyUnquote (plusToSpace nv), [])

/-- Model of `urllib.parse.parse_qsl(qs, keep_blank_values=True)`. -/
def pyParseQsl (qs : PyStr) : List (PyStr × PyStr) :=
  (if qs = [] then [] else splitOnChar '&' qs).filterMap parseSeg

/-! ### Python `dict` as an association list: first-insertion key order,
last assignment wins. -/

/-- Insert or overwrite a key in a Python-style dict. -/
def dictInsert (d : List (PyStr × α)) (k : PyStr) (v : α) : List (PyStr × α) :=
  if d.any (fun p => p.1 = k) then
    d.map (fun p => if p.1 = k then (p.1, v) else p)
  else d ++ [(k, v)]

/-- Model of Python `dict(pairs)`. -/
def dictOf (l : List (PyStr × α)) : List (PyStr × α) :=
  l.foldl (fun d p => dictInsert d p.1 p.2) []

/-- Key membership test (`k in d`). -/
def dictHasKey (d : List (PyStr × α)) (k : PyStr) : Bool :=
  d.any (fun p => p.1 = k)

/-- Lookup (`d.get(k)` / `d[k]`). -/
def dictGet? (d : List (PyStr × α)) (k : PyStr) : Option α :=
  (d.find? (fun p => p.1 = k)).map (fun p => p.2)

/-- Key removal (`d.pop(k, None)`'s effect on the dict). -/
def dictRemove (d : List (PyStr × α)) (k : PyStr) : List (PyStr × α) :=
  d.filter (fun p => ¬ p.1 = k)

/-- List of keys in order (`list(d.keys())`). -/
def dictKeys (d : List (PyStr × α)) : List PyStr := d.map Prod.fst

/-! ### SHA-256 (FIPS 180-4) over byte lists, and HMAC-SHA256. -/

/-- Addition modulo `2 ^ 32`. -/
def add32 (a b : Nat) : Nat := (a + b) % 4294967296

/-- Bitwise complement within 32 bits. -/
def not32 (a : Nat) : Nat := Nat.xor a 4294967295

/-- Right rotation of a 32-bit word. -/
def rotr32 (n a : Nat) : Nat :=
  Nat.lor (Nat.shiftRight a n) (Nat.shiftLeft a (32 - n) % 4294967296)

/-- SHA-256 big sigma 0. -/
def bsig0 (x : Nat) : Nat := Nat.xor (Nat.xor (rotr32 2 x) (rotr32 13 x)) (rotr32 22 x)

/-- SHA-256 big sigma 1. -/
def bsig1 (x : Nat) : Nat := Nat.xor (Nat.xor (rotr32 6 x) (rotr32 11 x)) (rotr32 25 x)

/-- SHA-256 small sigma 0. -/
def ssig0 (x : Nat) : Nat :=
  Nat.xor (Nat.xor (rotr32 7 x) (rotr32 18 x)) (Nat.shiftRight x 3)

/-- SHA-256 small sigma 1. -/
def ssig1 (x : Nat) : Nat :=
  Nat.xor (Nat.xor (rotr32 17 x) (rotr32 19 x)) (Nat.shiftRight x 10)

/-- SHA-256 choice function. -/
def chF (x y z : Nat) : Nat := Nat.xor (Nat.land x y) (Nat.land (not32 x) z)

/-- SHA-256 majority function. -/
def majF (x y z : Nat) : Nat :=
  Nat.xor (Nat.xor (Nat.land x y) (Nat.land x z)) (Nat.land y z)

/-- The 64 SHA-256 round constants (FIPS 180-4, written in decimal). -/
def K256 : List Nat :=
  [1116352408, 1899447441, 3049323471, 3921009573, 961987163,
   1508970993, 2453635748, 2870763221, 3624381080, 310598401,
   607225278, 1426881987, 1925078388, 2162078206, 2614888103,
   3248222580, 3835390401, 4022224774, 264347078, 604807628,
   770255983, 1249150122, 1555081692, 1996064986, 2554220882,
   2821834349, 2952996808, 3210313671, 3336571891, 3584528711,
   113926993, 338241895, 666307205, 773529912, 1294757372,
   1396182291, 1695183700, 1986661051, 2177026350, 2456956037,
   2730485921, 2820302411, 3259730800, 3345764771, 3516065817,
   3600352804, 4094571909, 275423344, 430227734, 506948616,
   659060556, 883997877, 958139571, 1322822218, 1537002063,
   1747873779, 1955562222, 2024104815, 2227730452, 2361852424,
   2428436474, 2756734187, 3204031479, 3329325298]

/-- The eight SHA-256 working variables. -/
structure Sha256St where
  a : Nat
  b : Nat
  c : Nat
  d : Nat
  e : Nat
  f : Nat
  g : Nat
  h : Nat

/-- Initial SHA-256 state (FIPS 180-4, written in decimal). -/
def sha256Init : Sha256St :=
  ⟨1779033703, 3144134277, 1013904242, 2773480762,
   1359893119, 2600822924, 528734635, 1541459225⟩

/-- Iterate a function a fixed number of times. -/
def iterateN (f : α → α) : Nat → α → α
  | 0, a => a
  | n + 1, a => iterateN f n (f a)

/-- One message-schedule extension step on the reversed schedule. -/
def schedStep (acc : List Nat) : List Nat :=
  add32 (add32 (ssig1 (acc.getD 1 0)) (acc.getD 6 0))
      (add32 (ssig0 (acc.getD 14 0)) (acc.getD 15 0)) :: acc

/-- The full 64-word message schedule from a 16-word block. -/
def msgSchedule (block16 : List Nat) : List Nat :=
  (iterateN schedStep 48 block16.reverse).reverse

/-- One SHA-256 compression round. -/
def compressRound (s : Sha256St) (kw : Nat × Nat) : Sha256St :=
  let t1 := add32 s.h (add32 (bsig1 s.e) (add32 (chF s.e s.f s.g) (add32 kw.1 kw.2)))
  let t2 := add32 (bsig0 s.a) (majF s.a s.b s.c)
  ⟨add32 t1 t2, s.a, s.b, s.c, add32 s.d t1, s.e, s.f, s.g⟩

/-- Process one 16-word block. -/
def processBlock (st : Sha256St) (block16 : List Nat) : Sha256St :=
  let f := (K256.zip (msgSchedule block16)).foldl compressRound st
  ⟨add32 st.a f.a, add32 st.b f.b, add32 st.c f.c, add32 st.d f.d,
   add32 st.e f.e, add32 st.f f.f, add32 st.g f.g, add32 st.h f.h⟩

/-- Big-endian eight-byte encoding of a length in bits. -/
def be64 (n : Nat) : List Nat :=
  [n / 72057594037927936 % 256, n / 281474976710656 % 256,
   n / 1099511627776 % 256, n / 4294967296 % 256,
   n / 16777216 % 256, n / 65536 % 256, n / 256 % 256, n % 256]

/-- SHA-256 padding: append `0x80`, zeros to 56 mod 64, then the bit length. -/
def sha256Pad (msg : List Nat) : List Nat :=
  msg ++ 128 :: List.replicate ((64 - (msg.length + 9) % 64) % 64) 0 ++
    be64 (8 * msg.length)

/-- Group bytes into big-endian 32-bit words (input length a multiple of 4). -/
def bytesToWords : List Nat → List Nat
  | b1 :: b2 :: b3 :: b4 :: rest =>
    (b1 * 16777216 + b2 * 65536 + b3 * 256 + b4) :: bytesToWords rest
  | _ => []

/-- Group words into 16-word blocks (input length a multiple of 16). -/
def wordsToBlocks : List Nat → List (List Nat)
  | w1 :: w2 :: w3 :: w4 :: w5 :: w6 :: w7 :: w8 ::
      w9 :: w10 :: w11 :: w12 :: w13 :: w14 :: w15 :: w16 :: rest =>
    [w1, w2, w3, w4, w5, w6, w7, w8, w9, w10, w11, w12, w13, w14, w15, w16] ::
      wordsToBlocks rest
  | _ => []

/-- Big-endian four-byte decomposition of a 32-bit word. -/
def wordBytes (w : Nat) : List Nat :=
  [w / 16777216 % 256, w / 65536 % 256, w / 256 % 256, w % 256]

/-- SHA-256 digest (32 bytes) of a byte list. -/
def sha256 (msg : List Nat) : List Nat :=
  let st := (wordsToBlocks (bytesToWords (sha256Pad msg))).foldl processBlock sha256Init
  wordBytes st.a ++ wordBytes st.b ++ wordBytes st.c ++ wordBytes st.d ++
    wordBytes st.e ++ wordBytes st.f ++ wordBytes st.g ++ wordBytes st.h

/-- Lowercase hexadecimal digit character. -/
def hexCharLower (n : Nat) : Char :=
  if n < 10 then Char.ofNat (48 + n) else Char.ofNat (87 + n)

/-- Lowercase hexadecimal rendering of a byte list (`.hexdigest()`). -/
def bytesToHexLower (bs : List Nat) : PyStr :=
  catMap (fun b => [hexCharLower (b / 16), hexCharLower (b % 16)]) bs

/-- HMAC-SHA256 over byte lists (`hmac.new(key, msg, hashlib.sha256)`). -/
def hmacSha256 (key msg : List Nat) : List Nat :=
  let k0 := if 64 < key.length then sha256 key else key
  let kp := k0 ++ List.replicate (64 - k0.length) 0
  sha256 ((kp.map (fun b => Nat.xor b 92)) ++
    sha256 ((kp.map (fun b => Nat.xor b 54)) ++ msg))

/-! ### Python `int(str)` conversion. -/

/-- ASCII decimal digit test. -/
def isAsciiDigit (c : Char) : Bool := '0' ≤ c ∧ c ≤ '9'

/-- Whitespace stripped by Python's `int(str)` (ASCII part). -/
def isPySpace (c : Char) : Bool :=
  c = ' ' ∨ c = '\t' ∨ c = '\n' ∨ c = '\x0b' ∨ c = '\x0c' ∨ c = '\r'

/-- Python `str.strip()` (ASCII whitespace). -/
def pyStrip (s : PyStr) : PyStr :=
  ((s.dropWhile isPySpace).reverse.dropWhile isPySpace).reverse

/-- Validate the digit part of an integer literal after its first digit:
digits with single underscores between digits; returns the digits. -/
def intDigitsGo : List Char → Option (List Char)
  | [] => some []
  | '_' :: d :: rest =>
    if isAsciiDigit d then (intDigitsGo rest).map (fun l => d :: l) else none
  | ['_'] => none
  | d :: rest =>
    if isAsciiDigit d then (intDigitsGo rest).map (fun l => d :: l) else none

/-- Digits to a natural number. -/
def digitsToNat (ds : List Char) : Nat :=
  ds.foldl (fun acc d => acc * 10 + (d.toNat - 48)) 0

/-- Unsigned integer literal: first char must be a digit, then
`intDigitsGo`. -/
def pyNatOfDigits? : List Char → Option Nat
  | [] => none
  | d :: rest =>
    if isAsciiDigit d then (intDigitsGo rest).map (fun l => digitsToNat (d :: l))
    else none

/-- Model of Python `int(s)` on strings: strip whitespace, optional sign,
decimal digits with single underscores allowed between digits.  `none`
models `ValueError`. -/
def pyInt? (s : PyStr) : Option Int :=
  match pyStrip s with
  | '+' :: rest => (pyNatOfDigits? rest).map Int.ofNat
  | '-' :: rest => (pyNatOfDigits? rest).map (fun n => -(Int.ofNat n))
  | rest => (pyNatOfDigits? rest).map Int.ofNat

/-- Decimal digits of a natural number (fuel-based, kernel-reducible). -/
def natDigitsAux : Nat → Nat → List Char → List Char
  | 0, _, acc => acc
  | fuel + 1, n, acc =>
    if n < 10 then Char.ofNat (48 + n) :: acc
    else natDigitsAux fuel (n / 10) (Char.ofNat (48 + n % 10) :: acc)

/-- Decimal rendering of a natural number. -/
def natRepr (n : Nat) : List Char := natDigitsAux (n + 1) n []

/-- Decimal rendering of an integer, as Python `repr`/`json.dumps` write it. -/
def intRepr (n : Int) : PyStr :=
  if n < 0 then '-' :: natRepr n.natAbs else natRepr n.natAbs

/-! ### Python `str.replace` (left to right, non-overlapping). -/

/-- Boolean prefix test on character lists. -/
def isPrefixCh : List Char → List Char → Bool
  | [], _ => true
  | _ :: _, [] => false
  | a :: as, b :: bs => if a = b then isPrefixCh as bs else false

/-- Worker for `pyReplace` with fuel (the fuel never runs out when started
at the string length, because every step consumes at least one character). -/
def pyReplaceGo (pat repl : PyStr) : Nat → PyStr → PyStr
  | 0, s => s
  | _ + 1, [] => []
  | fuel + 1, c :: rest =>
    if isPrefixCh pat (c :: rest) then
      repl ++ pyReplaceGo pat repl fuel ((c :: rest).drop pat.length)
    else c :: pyReplaceGo pat repl fuel rest

/-- Model of Python `s.replace(pat, repl)`. -/
def pyReplace (s pat repl : PyStr) : PyStr :=
  if pat = [] then repl ++ catMap (fun c => c :: repl) s
  else pyReplaceGo pat repl s.length s

/-! ### Substring search and ASCII lowercasing (for the `%3d` markers). -/

/-- Boolean substring test (`needle in haystack`). -/
def containsSub : PyStr → PyStr → Bool
  | [], pat => decide (pat = [])
  | x :: rest, pat => isPrefixCh pat (x :: rest) || containsSub rest pat

/-- ASCII lowercasing of one character (the `%XX` markers the source
searches for are ASCII, so the ASCII fragment of `str.lower` suffices). -/
def asciiLowerCh (c : Char) : Char :=
  if 'A' ≤ c ∧ c ≤ 'Z' then Char.ofNat (c.toNat + 32) else c

/-- ASCII fragment of Python `str.lower()`. -/
def asciiLower (s : PyStr) : PyStr := s.map asciiLowerCh

/-! ### JSON (`json.loads` / `json.dumps(obj, separators=(",", ":"),
ensure_ascii=False)`). -/

/-- JSON values as Python's `json` module produces them.  Non-integral
numbers are kept as their source literal (`jnum`); Python's float
shortest-repr formatting is not modelled (no verified statement depends
on it). -/
inductive JVal where
  | jnull
  | jbool (b : Bool)
  | jint (n : Int)
  | jnum (lit : PyStr)
  | jstr (s : PyStr)
  | jarr (xs : List JVal)
  | jobj (fields : List (PyStr × JVal))

/-- JSON whitespace skip. -/
def jsonSkipWs (s : PyStr) : PyStr :=
  s.dropWhile (fun c => c = ' ' ∨ c = '\t' ∨ c = '\n' ∨ c = '\r')

/-- Combine four hex digits. -/
def hex4 (h1 h2 h3 h4 : Char) : Nat :=
  ((hexDigitVal h1 * 16 + hexDigitVal h2) * 16 + hexDigitVal h3) * 16 + hexDigitVal h4

/-- Parse the body of a JSON string literal (opening quote consumed),
returning the decoded string and the remainder.  Surrogate pairs in
`\uXXXX` escapes are combined; a lone surrogate is replaced (Python keeps
it, but such a string cannot round-trip through UTF-8 anyway). -/
def jsonStrBody : Nat → PyStr → Option (PyStr × PyStr)
  | _, [] => none
  | 0, _ => none
  | fuel + 1, c :: rest =>
    if c = '"' then some ([], rest)
    else if c = '\\' then
      match rest with
      | 'u' :: h1 :: h2 :: h3 :: h4 :: rest2 =>
        if isHexDigitCh h1 ∧ isHexDigitCh h2 ∧ isHexDigitCh h3 ∧ isHexDigitCh h4 then
          let n := hex4 h1 h2 h3 h4
          if 0xD800 ≤ n ∧ n ≤ 0xDBFF then
            match rest2 with
            | '\\' :: 'u' :: k1 :: k2 :: k3 :: k4 :: rest3 =>
              if isHexDigitCh k1 ∧ isHexDigitCh k2 ∧ isHexDigitCh k3 ∧ isHexDigitCh k4 ∧
                  0xDC00 ≤ hex4 k1 k2 k3 k4 ∧ hex4 k1 k2 k3 k4 ≤ 0xDFFF then
                (jsonStrBody fuel rest3).map (fun p =>
                  (Char.ofNat (0x10000 + (n - 0xD800) * 1024 + (hex4 k1 k2 k3 k4 - 0xDC00)) :: p.1, p.2))
              else (jsonStrBody fuel rest2).map (fun p => (replacementChar :: p.1, p.2))
            | _ => (jsonStrBody fuel rest2).map (fun p => (replacementChar :: p.1, p.2))
          else if 0xDC00 ≤ n ∧ n ≤ 0xDFFF then
            (jsonStrBody fuel rest2).map (fun p => (replacementChar :: p.1, p.2))
          else (jsonStrBody fuel rest2).map (fun p => (Char.ofNat n :: p.1, p.2))
        else none
      | e :: rest2 =>
        let esc : Option Char :=
          if e = '"' then some '"'
          else if e = '\\' then some '\\'
          else if e = '/' then some '/'
          else if e = 'b' then some '\x08'
          else if e = 'f' then some '\x0c'
          else if e = 'n' then some '\n'
          else if e = 'r' then some '\r'
          else if e = 't' then some '\t'
          else none
        match esc with
        | some ch => (jsonStrBody fuel rest2).map (fun p => (ch :: p.1, p.2))
        | none => none
      | [] => none
    else if c.toNat < 0x20 then none
    else (jsonStrBody fuel rest).map (fun p => (c :: p.1, p.2))

/-- Parse a JSON number per the `json` module's grammar, returning `jint`
for pure integers and `jnum` (the literal) otherwise. -/
def jsonNumber (s : PyStr) : Option (JVal × PyStr) :=
  let sign := if s.headD ' ' = '-' then 1 else 0
  let afterSign := if sign = 1 then s.tail else s
  let intPart := afterSign.takeWhile isAsciiDigit
  let afterInt := afterSign.dropWhile isAsciiDigit
  if intPart = [] then none
  else if 1 < intPart.length ∧ intPart.headD ' ' = '0' then none
  else
    let fracPart :=
      if afterInt.headD ' ' = '.' then
        let ds := afterInt.tail.takeWhile isAsciiDigit
        if ds = [] then none else some ('.' :: ds)
      else some []
    match fracPart with
    | none => none
    | some fp =>
      let afterFrac := if fp = [] then afterInt else (afterInt.tail.dropWhile isAsciiDigit)
      let expPart :=
        if afterFrac.headD ' ' = 'e' ∨ afterFrac.headD ' ' = 'E' then
          let t := afterFrac.tail
          let esign := if t.headD ' ' = '+' ∨ t.headD ' ' = '-' then [t.headD ' '] else []
          let ds := (t.drop esign.length).takeWhile isAsciiDigit
          if ds = [] then none else some (afterFrac.headD ' ' :: esign ++ ds)
        else some []
      match expPart with
      | none => none
      | some ep =>
        let rest := (afterFrac.drop (if ep = [] then 0 else ep.length))
        let lit := (if sign = 1 then ['-'] else []) ++ intPart ++ fp ++ ep
        if fp = [] ∧ ep = [] then
          some (.jint (if sign = 1 then -(Int.ofNat (digitsToNat intPart))
                       else Int.ofNat (digitsToNat intPart)), rest)
        else some (.jnum lit, rest)

mutual

/-- Parse one JSON value (leading whitespace allowed), fuel-based. -/
def jsonVal : Nat → PyStr → Option (JVal × PyStr)
  | 0, _ => none
  | fuel + 1, s0 =>
    match jsonSkipWs s0 with
    | '\x7b' :: rest =>
      match jsonSkipWs rest with
      | '\x7d' :: rest2 => some (.jobj [], rest2)
      | _ => (jsonObjItems fuel rest).map (fun p => (JVal.jobj (dictOf p.1), p.2))
    | '[' :: rest =>
      match jsonSkipWs rest with
      | ']' :: rest2 => some (.jarr [], rest2)
      | _ => (jsonArrItems fuel rest).map (fun p => (JVal.jarr p.1, p.2))
    | '"' :: rest => (jsonStrBody (rest.length + 1) rest).map (fun p => (JVal.jstr p.1, p.2))
    | 't' :: 'r' :: 'u' :: 'e' :: rest => some (.jbool true, rest)
    | 'f' :: 'a' :: 'l' :: 's' :: 'e' :: rest => some (.jbool false, rest)
    | 'n' :: 'u' :: 'l' :: 'l' :: rest => some (.jnull, rest)
    | 'N' :: 'a' :: 'N' :: rest => some (.jnum (ofStr "NaN"), rest)
    | 'I' :: 'n' :: 'f' :: 'i' :: 'n' :: 'i' :: 't' :: 'y' :: rest =>
      some (.jnum (ofStr "Infinity"), rest)
    | '-' :: 'I' :: 'n' :: 'f' :: 'i' :: 'n' :: 'i' :: 't' :: 'y' :: rest =>
      some (.jnum (ofStr "-Infinity"), rest)
    | s => jsonNumber s

/-- Parse the members of a JSON array after `[` (at least one value). -/
def jsonArrItems : Nat → PyStr → Option (List JVal × PyStr)
  | 0, _ => none
  | fuel + 1, s =>
    match jsonVal fuel s with
    | none => none
    | some (v, rest) =>
      match jsonSkipWs rest with
      | ',' :: rest2 => (jsonArrItems fuel rest2).map (fun p => (v :: p.1, p.2))
      | ']' :: rest2 => some ([v], rest2)
      | _ => none

/-- Parse the members of a JSON object after the opening brace (at least
one member). -/
def jsonObjItems : Nat → PyStr → Option (List (PyStr × JVal) × PyStr)
  | 0, _ => none
  | fuel + 1, s =>
    match jsonSkipWs s with
    | '"' :: rest =>
      match jsonStrBody (rest.length + 1) rest with
      | none => none
      | some (key, rest2) =>
        match jsonSkipWs rest2 with
        | ':' :: rest3 =>
          match jsonVal fuel rest3 with
          | none => none
          | some (v, rest4) =>
            match jsonSkipWs rest4 with
            | ',' :: rest5 => (jsonObjItems fuel rest5).map (fun p => ((key, v) :: p.1, p.2))
            | '\x7d' :: rest5 => some ([(key, v)], rest5)
            | _ => none
        | _ => none
    | _ => none

end

/-- Model of `json.loads(s)`: parse one value, then require only trailing
whitespace. -/
def pyJsonLoads (s : PyStr) : Option JVal :=
  match jsonVal (2 * s.length + 2) s with
  | some (v, rest) => if jsonSkipWs rest = [] then some v else none
  | none => none

/-- Escaping of one character in `json.dumps(..., ensure_ascii=False)`:
only the quote, the backslash and control characters are escaped. -/
def jsonEscChar (c : Char) : PyStr :=
  if c = '"' then ['\\', '"']
  else if c = '\\' then ['\\', '\\']
  else if c = '\n' then ['\\', 'n']
  else if c = '\t' then ['\\', 't']
  else if c = '\r' then ['\\', 'r']
  else if c = '\x08' then ['\\', 'b']
  else if c = '\x0c' then ['\\', 'f']
  else if c.toNat < 0x20 then
    ['\\', 'u', '0', '0', hexCharLower (c.toNat / 16), hexCharLower (c.toNat % 16)]
  else [c]

mutual

/-- Model of `json.dumps(v, separators=(",", ":"), ensure_ascii=False)`.
Python never escapes forward slashes, matching the source's reliance on
a re-dump "without escaping slashes". -/
def jsonDump : JVal → PyStr
  | .jnull => ofStr "null"
  | .jbool true => ofStr "true"
  | .jbool false => ofStr "false"
  | .jint n => intRepr n
  | .jnum lit => lit
  | .jstr s => '"' :: catMap jsonEscChar s ++ ['"']
  | .jarr xs => '[' :: jsonDumpArr xs ++ [']']
  | .jobj fs => '\x7b' :: jsonDumpObj fs ++ ['\x7d']

/-- Comma-joined array elements. -/
def jsonDumpArr : List JVal → PyStr
  | [] => []
  | [x] => jsonDump x
  | x :: y :: xs => jsonDump x ++ ',' :: jsonDumpArr (y :: xs)

/-- Comma-joined object members. -/
def jsonDumpObj : List (PyStr × JVal) → PyStr
  | [] => []
  | [(k, v)] => '"' :: catMap jsonEscChar k ++ '"' :: ':' :: jsonDump v
  | (k, v) :: m :: fs =>
    '"' :: catMap jsonEscChar k ++ '"' :: ':' :: jsonDump v ++ ',' :: jsonDumpObj (m :: fs)

end

/-! ### Canonical check string and keyed digest
(`_build_data_check_string_from_parsed`, `_compute_hmac_hex`). -/

/-- Strict lexicographic comparison of strings by code point, Python's
`<` on `str`. -/
def lexLtB : PyStr → PyStr → Bool
  | _, [] => false
  | [], _ :: _ => true
  | a :: as, b :: bs => if a < b then true else if b < a then false else lexLtB as bs

/-- The corresponding reflexive order, used as `sorted`'s comparison. -/
def lexLeB (a b : PyStr) : Bool := ! lexLtB b a

/-- Python `sorted` on a list of strings. -/
def pySorted (l : List PyStr) : List PyStr :=
  List.insertionSort (fun a b => lexLeB a b = true) l

/-- Join with a separator, Python `sep.join(items)`. -/
def joinWith (sep : PyStr) : List PyStr → PyStr
  | [] => []
  | [x] => x
  | x :: y :: xs => x ++ sep ++ joinWith sep (y :: xs)

/-- A parsed field map: Python `Dict[str, str]` as an ordered association
list with unique keys. -/
abbrev FieldDict := List (PyStr × PyStr)

/-- Model of `_build_data_check_string_from_parsed`: sort the keys and join
the `k=v` lines with newlines. -/
def _build_data_check_string_from_parsed (parsed : FieldDict) : PyStr :=
  joinWith ['\n']
    ((pySorted (dictKeys parsed)).map (fun k => k ++ '=' :: (dictGet? parsed k).getD []))

/-- Model of `_compute_hmac_hex`: lowercase-hex HMAC-SHA256 of the check
string, keyed by SHA-256 of the bot token. -/
def _compute_hmac_hex (bot_token data_check_string : PyStr) : PyStr :=
  bytesToHexLower
    (hmacSha256 (sha256 (utf8Encode bot_token)) (utf8Encode data_check_string))

/-! ### The five source functions of `app/utils/telegram_auth.py`.

Comparison sites are instrumented: each digest-to-signature comparison the
code performs is recorded as a `CompareEvent` whose `constantTime` flag
states which primitive the source uses there (`hmac.compare_digest`, a
constant-time comparison, versus the ordinary `==` string equality).
Logging calls are recorded as `LogEvent`s carrying exactly the data the
source interpolates; the `try/except` wrappers around logging cannot fail
in the model, so only the `try` bodies appear. -/

/-- Model of `parse_init_data`. -/
def parse_init_data (init_data : PyStr) : FieldDict :=
  dictOf (pyParseQsl init_data)

/-- The reserved signature field key. -/
def kHash : PyStr := ofStr "hash"

/-- The wrapper key of step 2 of the canonicalizer. -/
def kTg : PyStr := ofStr "tgWebAppData"

/-- The profile field key. -/
def kUser : PyStr := ofStr "user"

/-- The timestamp field key. -/
def kAuthDate : PyStr := ofStr "auth_date"

/-- The key whose value is logged on success. -/
def kId : PyStr := ofStr "id"

/-- Step 4 of `_try_parse_variants` (the final fallthrough): `unquote` the
input twice and re-parse.  The `try` body cannot fail in the model, so the
reassigned `parsed`/`variant`/`norm` always supersede the earlier ones and
both the early return (signature key found) and the final return produce
the same triple. -/
def tryParseStep4 (init_data : PyStr) (_parsed : FieldDict) (_variant _norm : PyStr) :
    FieldDict × PyStr × PyStr :=
  let un2 := pyUnquote (pyUnquote init_data)
  (parse_init_data un2, ofStr "unquote_twice", un2)

/-- Step 3 of `_try_parse_variants`: `unquote` once when the raw string
contains a percent-encoded marker for one of the characters `=`, `&`
or the opening brace. -/
def tryParseStep3 (init_data : PyStr) (parsed : FieldDict) (variant norm : PyStr) :
    FieldDict × PyStr × PyStr :=
  let low := asciiLower init_data
  if containsSub low (ofStr "%3d") || containsSub low (ofStr "%26") ||
      containsSub low (ofStr "%7b") then
    let un1 := pyUnquote init_data
    let parsed_un1 := parse_init_data un1
    if dictHasKey parsed_un1 kHash then (parsed_un1, ofStr "unquote_once", un1)
    else tryParseStep4 init_data parsed_un1 (ofStr "unquote_once") un1
  else tryParseStep4 init_data parsed variant norm

/-- Model of `_try_parse_variants`: returns
`(parsed_dict, variant_name, normalized_init_data)`. -/
def _try_parse_variants (init_data : PyStr) : FieldDict × PyStr × PyStr :=
  let parsed := parse_init_data init_data
  if dictHasKey parsed kHash then (parsed, ofStr "raw", init_data)
  else
    match dictGet? parsed kTg with
    | some tv =>
      let inner := pyUnquote tv
      let parsed_inner := parse_init_data inner
      if dictHasKey parsed_inner kHash then (parsed_inner, ofStr "tgWebAppData_inner", inner)
      else tryParseStep3 init_data parsed_inner (ofStr "tgWebAppData_inner") inner
    | none => tryParseStep3 init_data parsed (ofStr "raw") init_data

/-- Which source line performs a digest comparison: the base comparison of
`verify_init_data` or the per-candidate comparison of the recovery search. -/
inductive CompareSite where
  | base
  | recovery
deriving DecidableEq

/-- One digest-to-signature comparison, with the flag saying whether the
source performs it through `hmac.compare_digest`. -/
structure CompareEvent where
  site : CompareSite
  constantTime : Bool
deriving DecidableEq

/-- Model of `hmac.compare_digest` on hex strings: value-wise it is string
equality; the source relies on it for its constant-time execution. -/
def hmacCompareDigest (a b : PyStr) : Bool := decide (a = b)

/-- Model of Python `==` on strings: the ordinary, not constant-time,
string comparison. -/
def pyStrEqPlain (a b : PyStr) : Bool := decide (a = b)

/-- The candidate list the recovery search builds from the current `user`
value, in source order: the original value, the escaped-slash replacement,
the JSON parse-and-re-dump when it parses, the backslash-quote removal and
the double-backslash collapse. -/
def userNormCandidates (user_val : PyStr) : List (PyStr × PyStr) :=
  [(ofStr "original_user", user_val),
   (ofStr "replace_escaped_slashes", pyReplace user_val (ofStr "\\/") (ofStr "/"))] ++
  (match pyJsonLoads (pyReplace user_val (ofStr "\\/") (ofStr "/")) with
   | some obj => [(ofStr "user_json_parsed_and_dumped", jsonDump obj)]
   | none => []) ++
  [(ofStr "remove_backslash_before_quote", pyReplace user_val (ofStr "\\\"") (ofStr "\"")),
   (ofStr "unescape_double_backslashes", pyReplace user_val (ofStr "\\\\") (ofStr "\\"))]

/-- Deduplication of candidates by value, preserving order (`seen` set). -/
def dedupByValue : List (PyStr × PyStr) → List PyStr → List (PyStr × PyStr)
  | [], _ => []
  | nv :: rest, seen =>
    if nv.2 ∈ seen then dedupByValue rest seen
    else nv :: dedupByValue rest (nv.2 :: seen)

/-- The digest comparison the recovery loop performs for one candidate
value. -/
def candMatches (parsed : FieldDict) (provided_hash bot_token cand : PyStr) : Bool :=
  pyStrEqPlain
    (_compute_hmac_hex bot_token
      (_build_data_check_string_from_parsed (dictInsert parsed kUser cand)))
    provided_hash

/-- The `for name, user_candidate in uniq` loop: substitute the candidate,
rebuild the check string, recompute the digest and compare with `==`. -/
def userNormLoop (parsed : FieldDict) (provided_hash bot_token : PyStr) :
    List (PyStr × PyStr) → Bool × FieldDict × PyStr × List CompareEvent
  | [] => (false, parsed, ofStr "user_norm_none", [])
  | nv :: rest =>
    if candMatches parsed provided_hash bot_token nv.2 then
      (true, dictInsert parsed kUser nv.2, ofStr "user_norm:" ++ nv.1,
       [⟨.recovery, false⟩])
    else
      let r := userNormLoop parsed provided_hash bot_token rest
      (r.1, r.2.1, r.2.2.1, ⟨.recovery, false⟩ :: r.2.2.2)

/-- Model of `_try_user_normalizations_and_verify`, also returning the
comparison events of the candidate loop. -/
def _try_user_normalizations_and_verify (parsed : FieldDict)
    (provided_hash bot_token : PyStr) : Bool × FieldDict × PyStr × List CompareEvent :=
  match dictGet? parsed kUser with
  | none => (false, parsed, ofStr "no_user", [])
  | some user_val =>
    userNormLoop parsed provided_hash bot_token
      (dedupByValue (userNormCandidates user_val) [])

/-- Values of the returned payload dict (`Dict[str, Any]`): field values
stay strings except the timestamp coercion to `int`. -/
inductive PyVal where
  | s (v : PyStr)
  | i (n : Int)
deriving DecidableEq

/-- The `if "auth_date" in payload: payload["auth_date"] = int(...)` step,
leaving the string untouched when the conversion raises. -/
def coerceAuthDate (payload : FieldDict) : List (PyStr × PyVal) :=
  payload.map (fun p =>
    if p.1 = kAuthDate then
      match pyInt? p.2 with
      | some n => (p.1, PyVal.i n)
      | none => (p.1, PyVal.s p.2)
    else (p.1, PyVal.s p.2))

/-- Lookup in the returned payload (`payload.get(k)`). -/
def payloadGet? (payload : List (PyStr × PyVal)) (k : PyStr) : Option PyVal :=
  (payload.find? (fun p => p.1 = k)).map (fun p => p.2)

/-- One logging call of `verify_init_data`, carrying the interpolated data. -/
inductive LogEvent where
  | warnNoHash (variant : PyStr)
  | warnRawNormalized (norm : PyStr)
  | warnParsedKeys (keys : List PyStr)
  | infoVerified (variant : PyStr) (userId : Option PyVal)
  | infoVerifiedAfterNorm (variant : PyStr)
  | warnHashMismatch (variant : PyStr)
  | warnParsedFields (fields : FieldDict)
  | warnDataCheckString (dcs : PyStr)
  | warnSecretKeyHex (hex : PyStr)
  | warnComputedHmac (h : PyStr)
  | warnProvidedHash (h : PyStr)
deriving DecidableEq

/-- The outcome of `verify_init_data`:
`(True, payload)` or `(False, reason)`. -/
inductive VerifyResult where
  | success (payload : List (PyStr × PyVal))
  | failure (reason : PyStr)
deriving DecidableEq

/-- Model of `verify_init_data`, additionally returning the comparison
events and the log events of the taken path.  The `isinstance` guard is
subsumed by the input type, and `parsed.pop("hash", None)` is split into
the lookup and the key removal. -/
def verify_init_data_full (init_data bot_token : PyStr) :
    VerifyResult × List CompareEvent × List LogEvent :=
  let v := _try_parse_variants init_data
  let parsed := v.1
  let used_variant := v.2.1
  let normalized_init := v.2.2
  let provided_hash := dictGet? parsed kHash
  let parsedP := dictRemove parsed kHash
  let noHashOut : VerifyResult × List CompareEvent × List LogEvent :=
    (.failure (ofStr "no hash in init_data"), [],
     [.warnNoHash used_variant, .warnRawNormalized normalized_init,
      .warnParsedKeys (dictKeys parsedP)])
  match provided_hash with
  | none => noHashOut
  | some ph =>
    if ph = [] then noHashOut
    else
      let data_check_string := _build_data_check_string_from_parsed parsedP
      let computed_hmac := _compute_hmac_hex bot_token data_check_string
      let baseEv : CompareEvent := ⟨.base, true⟩
      if hmacCompareDigest computed_hmac ph then
        let payload := coerceAuthDate parsedP
        (.success payload, [baseEv],
         [.infoVerified used_variant (payloadGet? payload kId)])
      else
        let r := _try_user_normalizations_and_verify parsedP ph bot_token
        if r.1 then
          let payload := coerceAuthDate r.2.1
          (.success payload, baseEv :: r.2.2.2, [.infoVerifiedAfterNorm r.2.2.1])
        else
          (.failure (ofStr "hash_mismatch"), baseEv :: r.2.2.2,
           [.warnHashMismatch used_variant, .warnRawNormalized normalized_init,
            .warnParsedFields parsedP, .warnDataCheckString data_check_string,
            .warnSecretKeyHex (bytesToHexLower (sha256 (utf8Encode bot_token))),
            .warnComputedHmac computed_hmac, .warnProvidedHash ph])

/-- The value `verify_init_data` returns. -/
def verify_init_data (init_data bot_token : PyStr) : VerifyResult :=
  (verify_init_data_full init_data bot_token).1

/-- The comparison events of a verification run. -/
def verifyCompares (init_data bot_token : PyStr) : List CompareEvent :=
  (verify_init_data_full init_data bot_token).2.1

/-- The log events of a verification run. -/
def verifyLogs (init_data bot_token : PyStr) : List LogEvent :=
  (verify_init_data_full init_data bot_token).2.2

/-! ### Statement-side definitions written from the specification: the
round-trip serializer (`serialize(M, sign(M, S))`), the slash escaping of
the profile-field recovery property, and the canonicalizer contract of
section 4.1. -/

/-- Uppercase hexadecimal digit character. -/
def hexCharUpper (n : Nat) : Char :=
  if n < 10 then Char.ofNat (48 + n) else Char.ofNat (55 + n)

/-- Percent-encoding of one byte, `%XX`. -/
def encByte (b : Nat) : PyStr := ['%', hexCharUpper (b / 16), hexCharUpper (b % 16)]

/-- Fully percent-encoded form of a string: every UTF-8 byte as `%XX`.
A maximally conservative query-string encoder, so that `serialize` is
defined on every field map. -/
def pctEncodeAll (s : PyStr) : PyStr := catMap encByte (utf8Encode s)

/-- One `name=value` query-string pair with both sides percent-encoded. -/
def serializePair (p : PyStr × PyStr) : PyStr :=
  pctEncodeAll p.1 ++ '=' :: pctEncodeAll p.2

/-- Query-string serialization of a field map alone (no signature field). -/
def serializeFields (m : FieldDict) : PyStr :=
  joinWith ['&'] (m.map serializePair)

/-- The specification's `serialize(M, sig)`: the field pairs followed by
the signature field `hash=sig`. -/
def serializeCredential (m : FieldDict) (sig : PyStr) : PyStr :=
  joinWith ['&'] (m.map serializePair ++ [kHash ++ '=' :: sig])

/-- The specification's `sign(M, S)`: the digest of section 4.2 step 3,
computed by the source's own digest routine over the canonical check
string of `M`. -/
def signFields (bot_token : PyStr) (m : FieldDict) : PyStr :=
  _compute_hmac_hex bot_token (_build_data_check_string_from_parsed m)

/-- Escaping every slash as the two-character sequence backslash-slash,
the transport mangling the profile-field recovery is about. -/
def escapeSlashes (v : PyStr) : PyStr :=
  catMap (fun c => if c = '/' then ['\\', '/'] else [c]) v

/-- The marker condition of canonicalizer step 3: the raw string contains
a percent-encoded marker for `=`, `&` or the opening brace. -/
def hasPctMarker (raw : PyStr) : Bool :=
  containsSub (asciiLower raw) (ofStr "%3d") || containsSub (asciiLower raw) (ofStr "%26") ||
    containsSub (asciiLower raw) (ofStr "%7b")

/-- The ordered attempt list of the canonicalizer contract (section 4.1):
raw, wrapper-decode when the raw split contains the wrapper key,
decode-once when the raw string contains a percent-encoded marker,
decode-twice always. -/
def parseVariantsSpecAttempts (raw : PyStr) : List (FieldDict × PyStr × PyStr) :=
  let p0 := parse_init_data raw
  [(p0, ofStr "raw", raw)] ++
  (match dictGet? p0 kTg with
   | some tv =>
     let inner := pyUnquote tv
     [(parse_init_data inner, ofStr "tgWebAppData_inner", inner)]
   | none => []) ++
  (if hasPctMarker raw then
     let u1 := pyUnquote raw
     [(parse_init_data u1, ofStr "unquote_once", u1)]
   else []) ++
  [(parse_init_data (pyUnquote (pyUnquote raw)), ofStr "unquote_twice",
    pyUnquote (pyUnquote raw))]

/-- The canonicalizer contract: the first attempted variant whose field
map contains the signature key, otherwise the last attempted variant. -/
def parseVariantsSpec (raw : PyStr) : FieldDict × PyStr × PyStr :=
  let attempts := parseVariantsSpecAttempts raw
  match attempts.find? (fun a => dictHasKey a.1 kHash) with
  | some a => a
  | none => attempts.getLastD (parse_init_data raw, ofStr "raw", raw)

/-- The profile-field JSON string of the concrete scenario of section 8
(braces written as hexadecimal escapes). -/
def userStr3 : PyStr := ofStr "\x7b\"id\":1,\"name\":\"A\"\x7d"

/-- The concrete field map of the section 8 scenario. -/
def fields3 : FieldDict :=
  [(ofStr "auth_date", ofStr "1700000000"), (ofStr "query_id", ofStr "AAA"),
   (kUser, userStr3)]

/-! ### Auxiliary lemmas: hexadecimal digits and the UTF-8 round trip. -/

theorem isHex_hexCharUpper {n : Nat} (h : n < 16) :
    isHexDigitCh (hexCharUpper n) = true := by
  interval_cases n <;> decide

theorem hexDigitVal_hexCharUpper {n : Nat} (h : n < 16) :
    hexDigitVal (hexCharUpper n) = n := by
  interval_cases n <;> decide

theorem hexCharUpper_ne_pct {n : Nat} (h : n < 16) : hexCharUpper n ≠ '%' := by
  interval_cases n <;> decide

theorem char_valid_range (c : Char) :
    c.toNat < 0xd800 ∨ (0xdfff < c.toNat ∧ c.toNat < 0x110000) := c.valid

theorem char_toNat_lt (c : Char) : c.toNat < 0x110000 := by
  rcases char_valid_range c with h | ⟨_, h⟩ <;> omega

theorem utf8EncodeChar_lt256 {c : Char} : ∀ b ∈ utf8EncodeChar c, b < 256 := by
  intro b hb
  have hv := char_toNat_lt c
  simp only [utf8EncodeChar] at hb
  by_cases h1 : c.toNat < 128 <;> by_cases h2 : c.toNat < 2048 <;>
    by_cases h3 : c.toNat < 65536 <;>
    simp [h1, h2, h3, List.mem_cons] at hb <;> omega

theorem utf8Encode_lt256 {s : PyStr} : ∀ b ∈ utf8Encode s, b < 256 := by
  induction s with
  | nil => intro b hb; cases hb
  | cons c rest ih =>
    intro b hb
    rw [utf8Encode, catMap] at hb
    rcases List.mem_append.1 hb with h | h
    · exact utf8EncodeChar_lt256 b h
    · exact ih b h

theorem utf8Run_cons (b : Nat) (rest : List Nat) (st : Utf8State) :
    utf8Run (b :: rest) st = (byteStep st b).1 ++ utf8Run rest (byteStep st b).2 := rfl

theorem utf8Run_encodeChar (c : Char) (bs : List Nat) :
    utf8Run (utf8EncodeChar c ++ bs) .start = c :: utf8Run bs .start := by
  have hv := char_valid_range c
  have hlt := char_toNat_lt c
  by_cases h1 : c.toNat < 0x80
  · have he : utf8EncodeChar c = [c.toNat] := by simp [utf8EncodeChar, h1]
    rw [he]
    show utf8Run (c.toNat :: bs) .start = _
    rw [utf8Run_cons]
    have hs : byteStep .start c.toNat = ([c], .start) := by
      show startStep c.toNat = _
      unfold startStep
      rw [if_pos h1, Char.ofNat_toNat]
    rw [hs]
    rfl
  · by_cases h2 : c.toNat < 0x800
    · have he : utf8EncodeChar c = [0xC0 + c.toNat / 64, 0x80 + c.toNat % 64] := by
        simp [utf8EncodeChar, h1, h2]
      rw [he]
      show utf8Run ((0xC0 + c.toNat / 64) :: (0x80 + c.toNat % 64) :: bs) .start = _
      rw [utf8Run_cons]
      have hs1 : byteStep .start (0xC0 + c.toNat / 64) = ([], .need1 (c.toNat / 64)) := by
        show startStep _ = _
        unfold startStep
        rw [if_neg (by omega), if_pos (by omega)]
        have e : 0xC0 + c.toNat / 64 - 0xC0 = c.toNat / 64 := by omega
        rw [e]
      rw [hs1]
      dsimp only
      rw [utf8Run_cons]
      have hs2 : byteStep (.need1 (c.toNat / 64)) (0x80 + c.toNat % 64) = ([c], .start) := by
        simp only [byteStep]
        rw [if_pos (by omega)]
        have e : c.toNat / 64 * 64 + (0x80 + c.toNat % 64 - 0x80) = c.toNat := by omega
        rw [e, Char.ofNat_toNat]
      rw [hs2]
      rfl
    · by_cases h3 : c.toNat < 0x10000
      · have he : utf8EncodeChar c =
            [0xE0 + c.toNat / 4096, 0x80 + c.toNat / 64 % 64, 0x80 + c.toNat % 64] := by
          simp [utf8EncodeChar, h1, h2, h3]
        rw [he]
        show utf8Run ((0xE0 + c.toNat / 4096) :: (0x80 + c.toNat / 64 % 64) ::
          (0x80 + c.toNat % 64) :: bs) .start = _
        rw [utf8Run_cons]
        have hs1 : byteStep .start (0xE0 + c.toNat / 4096) =
            ([], .need2 (c.toNat / 4096)
              (if 0xE0 + c.toNat / 4096 = 0xE0 then 0xA0 else 0x80)
              (if 0xE0 + c.toNat / 4096 = 0xED then 0x9F else 0xBF)) := by
          show startStep _ = _
          unfold startStep
          rw [if_neg (by omega), if_neg (by omega), if_pos (by omega)]
          have e : 0xE0 + c.toNat / 4096 - 0xE0 = c.toNat / 4096 := by omega
          rw [e]
        rw [hs1]
        dsimp only
        rw [utf8Run_cons]
        have hs2 : byteStep (.need2 (c.toNat / 4096)
              (if 0xE0 + c.toNat / 4096 = 0xE0 then 0xA0 else 0x80)
              (if 0xE0 + c.toNat / 4096 = 0xED then 0x9F else 0xBF))
            (0x80 + c.toNat / 64 % 64) =
            ([], .need1 (c.toNat / 4096 * 64 + c.toNat / 64 % 64)) := by
          simp only [byteStep]
          have hlo : (if 0xE0 + c.toNat / 4096 = 0xE0 then 0xA0 else 0x80) ≤
              0x80 + c.toNat / 64 % 64 := by split <;> omega
          have hhi : 0x80 + c.toNat / 64 % 64 ≤
              (if 0xE0 + c.toNat / 4096 = 0xED then 0x9F else 0xBF) := by split <;> omega
          rw [if_pos ⟨hlo, hhi⟩]
          have e : c.toNat / 4096 * 64 + (0x80 + c.toNat / 64 % 64 - 0x80) =
              c.toNat / 4096 * 64 + c.toNat / 64 % 64 := by omega
          rw [e]
        rw [hs2]
        dsimp only
        rw [utf8Run_cons]
        have hs3 : byteStep (.need1 (c.toNat / 4096 * 64 + c.toNat / 64 % 64))
            (0x80 + c.toNat % 64) = ([c], .start) := by
          simp only [byteStep]
          rw [if_pos (by omega)]
          have e : (c.toNat / 4096 * 64 + c.toNat / 64 % 64) * 64 +
              (0x80 + c.toNat % 64 - 0x80) = c.toNat := by omega
          rw [e, Char.ofNat_toNat]
        rw [hs3]
        rfl
      · have he : utf8EncodeChar c = [0xF0 + c.toNat / 262144, 0x80 + c.toNat / 4096 % 64,
            0x80 + c.toNat / 64 % 64, 0x80 + c.toNat % 64] := by
          simp [utf8EncodeChar, h1, h2, h3]
        rw [he]
        show utf8Run ((0xF0 + c.toNat / 262144) :: (0x80 + c.toNat / 4096 % 64) ::
          (0x80 + c.toNat / 64 % 64) :: (0x80 + c.toNat % 64) :: bs) .start = _
        rw [utf8Run_cons]
        have hs1 : byteStep .start (0xF0 + c.toNat / 262144) =
            ([], .need3 (c.toNat / 262144)
              (if 0xF0 + c.toNat / 262144 = 0xF0 then 0x90 else 0x80)
              (if 0xF0 + c.toNat / 262144 = 0xF4 then 0x8F else 0xBF)) := by
          show startStep _ = _
          unfold startStep
          rw [if_neg (by omega), if_neg (by omega), if_neg (by omega), if_pos (by omega)]
          have e : 0xF0 + c.toNat / 262144 - 0xF0 = c.toNat / 262144 := by omega
          rw [e]
        rw [hs1]
        dsimp only
        rw [utf8Run_cons]
        have hs2 : byteStep (.need3 (c.toNat / 262144)
              (if 0xF0 + c.toNat / 262144 = 0xF0 then 0x90 else 0x80)
              (if 0xF0 + c.toNat / 262144 = 0xF4 then 0x8F else 0xBF))
            (0x80 + c.toNat / 4096 % 64) =
            ([], .need2 (c.toNat / 262144 * 64 + c.toNat / 4096 % 64) 0x80 0xBF) := by
          simp only [byteStep]
          have hlo : (if 0xF0 + c.toNat / 262144 = 0xF0 then 0x90 else 0x80) ≤
              0x80 + c.toNat / 4096 % 64 := by split <;> omega
          have hhi : 0x80 + c.toNat / 4096 % 64 ≤
              (if 0xF0 + c.toNat / 262144 = 0xF4 then 0x8F else 0xBF) := by split <;> omega
          rw [if_pos ⟨hlo, hhi⟩]
          have e : c.toNat / 262144 * 64 + (0x80 + c.toNat / 4096 % 64 - 0x80) =
              c.toNat / 262144 * 64 + c.toNat / 4096 % 64 := by omega
          rw [e]
        rw [hs2]
        dsimp only
        rw [utf8Run_cons]
        have hs3 : byteStep (.need2 (c.toNat / 262144 * 64 + c.toNat / 4096 % 64) 0x80 0xBF)
            (0x80 + c.toNat / 64 % 64) =
            ([], .need1 ((c.toNat / 262144 * 64 + c.toNat / 4096 % 64) * 64 +
              c.toNat / 64 % 64)) := by
          simp only [byteStep]
          rw [if_pos (by omega)]
          have e : (c.toNat / 262144 * 64 + c.toNat / 4096 % 64) * 64 +
              (0x80 + c.toNat / 64 % 64 - 0x80) =
              (c.toNat / 262144 * 64 + c.toNat / 4096 % 64) * 64 + c.toNat / 64 % 64 := by omega
          rw [e]
        rw [hs3]
        dsimp only
        rw [utf8Run_cons]
        have hs4 : byteStep (.need1 ((c.toNat / 262144 * 64 + c.toNat / 4096 % 64) * 64 +
              c.toNat / 64 % 64)) (0x80 + c.toNat % 64) = ([c], .start) := by
          simp only [byteStep]
          rw [if_pos (by omega)]
          have e : ((c.toNat / 262144 * 64 + c.toNat / 4096 % 64) * 64 + c.toNat / 64 % 64) * 64 +
              (0x80 + c.toNat % 64 - 0x80) = c.toNat := by omega
          rw [e, Char.ofNat_toNat]
        rw [hs4]
        rfl

theorem utf8DecodeReplace_utf8Encode (s : PyStr) :
    utf8DecodeReplace (utf8Encode s) = s := by
  unfold utf8DecodeReplace
  induction s with
  | nil => rfl
  | cons c rest ih =>
    have he : utf8Encode (c :: rest) = utf8EncodeChar c ++ utf8Encode rest := rfl
    rw [he, utf8Run_encodeChar, ih]

theorem utf8DecodeReplace_ascii {bs : List Nat} (h : ∀ b ∈ bs, b < 128) :
    utf8DecodeReplace bs = bs.map Char.ofNat := by
  unfold utf8DecodeReplace
  induction bs with
  | nil => rfl
  | cons b rest ih =>
    have hb : b < 128 := h b (by simp)
    rw [utf8Run_cons]
    have hs : byteStep .start b = ([Char.ofNat b], .start) := by
      show startStep b = _
      unfold startStep
      rw [if_pos hb]
    rw [hs, List.map_cons, ih (fun x hx => h x (by simp [hx]))]
    rfl

theorem utf8DecodeReplace_map_toNat {s : PyStr} (h : ∀ c ∈ s, c.toNat < 128) :
    utf8DecodeReplace (s.map Char.toNat) = s := by
  rw [utf8DecodeReplace_ascii]
  · rw [List.map_map]
    have : ∀ c ∈ s, (Char.ofNat ∘ Char.toNat) c = id c := by
      intro c _; simp [Function.comp, Char.ofNat_toNat]
    rw [List.map_congr_left this, List.map_id]
  · intro b hb
    rcases List.mem_map.1 hb with ⟨c, hc, rfl⟩
    exact h c hc

/-! ### Percent-decoding lemmas: the fully percent-encoded serializer
decodes back to the original string, and strings without `%` decode to
themselves. -/

theorem mem_catMap {f : α → List β} {l : List α} {c : β} (h : c ∈ catMap f l) :
    ∃ a ∈ l, c ∈ f a := by
  induction l with
  | nil => cases h
  | cons a rest ih =>
    rw [catMap] at h
    rcases List.mem_append.1 h with h1 | h1
    · exact ⟨a, by simp, h1⟩
    · rcases ih h1 with ⟨x, hx, hc⟩
      exact ⟨x, by simp [hx], hc⟩

theorem hexCharUpper_facts {n : Nat} (h : n < 16) :
    hexCharUpper n ≠ '&' ∧ hexCharUpper n ≠ '=' ∧ hexCharUpper n ≠ '+' ∧
      (hexCharUpper n).toNat < 128 := by
  interval_cases n <;> decide

theorem mem_pctEncodeAll_facts {v : PyStr} {c : Char} (h : c ∈ pctEncodeAll v) :
    c ≠ '&' ∧ c ≠ '=' ∧ c ≠ '+' ∧ c.toNat < 128 := by
  unfold pctEncodeAll at h
  rcases mem_catMap h with ⟨b, hb, hc⟩
  have hblt : b < 256 := utf8Encode_lt256 b hb
  rcases hc with _ | ⟨_, hc2⟩
  · exact ⟨by decide, by decide, by decide, by decide⟩
  · rcases hc2 with _ | ⟨_, hc3⟩
    · exact hexCharUpper_facts (by omega)
    · rcases hc3 with _ | ⟨_, hc4⟩
      · exact hexCharUpper_facts (by omega)
      · cases hc4

theorem unquoteAux_nil_none (buf : List Nat) :
    unquoteAux [] .none0 buf = utf8DecodeReplace buf.reverse := by
  simp [unquoteAux, pendingBytes]

theorem unquoteAux_start_pct (rest : PyStr) (buf : List Nat) :
    unquoteAux ('%' :: rest) .none0 buf = unquoteAux rest .pct buf := by
  simp [unquoteAux]

theorem unquoteAux_pct_digit {c : Char} (rest : PyStr) (buf : List Nat)
    (hne : c ≠ '%') (hhex : isHexDigitCh c = true) :
    unquoteAux (c :: rest) .pct buf = unquoteAux rest (.pctDigit c) buf := by
  simp only [unquoteAux]
  rw [if_neg hne, if_pos hhex]

theorem unquoteAux_digit_done {c : Char} (h1 : Char) (rest : PyStr) (buf : List Nat)
    (hhex : isHexDigitCh c = true) :
    unquoteAux (c :: rest) (.pctDigit h1) buf =
      unquoteAux rest .none0 ((hexDigitVal h1 * 16 + hexDigitVal c) :: buf) := by
  simp only [unquoteAux]
  rw [if_pos hhex]

theorem unquoteAux_start_ascii {c : Char} (rest : PyStr) (buf : List Nat)
    (hne : c ≠ '%') (hlt : c.toNat < 0x80) :
    unquoteAux (c :: rest) .none0 buf = unquoteAux rest .none0 (c.toNat :: buf) := by
  simp only [unquoteAux]
  rw [if_neg hne, if_pos hlt]

theorem unquoteAux_start_nonascii {c : Char} (rest : PyStr) (buf : List Nat)
    (hge : ¬ c.toNat < 0x80) :
    unquoteAux (c :: rest) .none0 buf =
      utf8DecodeReplace buf.reverse ++ c :: unquoteAux rest .none0 [] := by
  have hne : c ≠ '%' := by
    intro he; rw [he] at hge; exact hge (by decide)
  simp only [unquoteAux]
  rw [if_neg hne, if_neg hge]

theorem unquoteAux_enc {bs : List Nat} (hb : ∀ b ∈ bs, b < 256) (buf : List Nat) :
    unquoteAux (catMap encByte bs) .none0 buf = utf8DecodeReplace (buf.reverse ++ bs) := by
  induction bs generalizing buf with
  | nil => simpa using unquoteAux_nil_none buf
  | cons b rest ih =>
    have hblt : b < 256 := hb b (by simp)
    have h1 : b / 16 < 16 := by omega
    have h2 : b % 16 < 16 := by omega
    show unquoteAux
      ('%' :: hexCharUpper (b / 16) :: hexCharUpper (b % 16) :: catMap encByte rest)
      .none0 buf = _
    rw [unquoteAux_start_pct,
        unquoteAux_pct_digit _ _ (hexCharUpper_ne_pct h1) (isHex_hexCharUpper h1),
        unquoteAux_digit_done _ _ _ (isHex_hexCharUpper h2),
        hexDigitVal_hexCharUpper h1, hexDigitVal_hexCharUpper h2]
    have e : b / 16 * 16 + b % 16 = b := by omega
    rw [e, ih (fun x hx => hb x (by simp [hx]))]
    simp

theorem pyUnquote_pctEncodeAll (v : PyStr) : pyUnquote (pctEncodeAll v) = v := by
  unfold pyUnquote pctEncodeAll
  rw [unquoteAux_enc utf8Encode_lt256]
  simpa using utf8DecodeReplace_utf8Encode v

theorem unquoteAux_nopct {s : PyStr} (hs : '%' ∉ s) (buf : List Nat)
    (hbuf : ∀ b ∈ buf, b < 128) :
    unquoteAux s .none0 buf = utf8DecodeReplace buf.reverse ++ s := by
  induction s generalizing buf with
  | nil => rw [unquoteAux_nil_none, List.append_nil]
  | cons c rest ih =>
    have hne : c ≠ '%' := by intro he; exact hs (by simp [he])
    have hrest : '%' ∉ rest := fun hr => hs (by simp [hr])
    by_cases hlt : c.toNat < 0x80
    · rw [unquoteAux_start_ascii _ _ hne hlt,
          ih hrest (c.toNat :: buf) (by
            intro x hx
            rcases List.mem_cons.1 hx with rfl | hx2
            · exact hlt
            · exact hbuf x hx2)]
      have hall : ∀ b ∈ buf.reverse ++ [c.toNat], b < 128 := by
        intro x hx
        rcases List.mem_append.1 hx with hx1 | hx2
        · exact hbuf x (List.mem_reverse.1 hx1)
        · rcases List.mem_singleton.1 hx2 with rfl
          exact hlt
      rw [List.reverse_cons, utf8DecodeReplace_ascii hall,
          utf8DecodeReplace_ascii (fun x hx => hbuf x (List.mem_reverse.1 hx))]
      simp [Char.ofNat_toNat]
    · rw [unquoteAux_start_nonascii _ _ hlt, ih hrest [] (by intro x hx; cases hx)]
      simp
      rfl

theorem pyUnquote_nopct {s : PyStr} (hs : '%' ∉ s) : pyUnquote s = s := by
  unfold pyUnquote
  rw [unquoteAux_nopct hs [] (by intro x hx; cases hx)]
  rfl

theorem plusToSpace_id {s : PyStr} (hs : '+' ∉ s) : plusToSpace s = s := by
  unfold plusToSpace
  have : ∀ c ∈ s, (if c = '+' then ' ' else c) = id c := by
    intro c hc
    have : c ≠ '+' := fun he => hs (he ▸ hc)
    simp [this]
  rw [List.map_congr_left this, List.map_id]

/-! ### Splitting and joining lemmas. -/

theorem splitOnChar_cons_sep (c : Char) (rest : PyStr) :
    splitOnChar c (c :: rest) = [] :: splitOnChar c rest := by
  simp [splitOnChar]

theorem splitOnChar_cons_nosep {x c : Char} (rest : PyStr) (h : x ≠ c) :
    splitOnChar c (x :: rest) = consHead x (splitOnChar c rest) := by
  simp [splitOnChar, h]

theorem splitOnChar_nosep {c : Char} {s : PyStr} (h : c ∉ s) :
    splitOnChar c s = [s] := by
  induction s with
  | nil => rfl
  | cons x rest ih =>
    have hx : x ≠ c := fun he => h (by simp [he])
    rw [splitOnChar_cons_nosep _ hx, ih (fun hr => h (by simp [hr]))]
    rfl

theorem splitOnChar_append {c : Char} {a b : PyStr} (h : c ∉ a) :
    splitOnChar c (a ++ c :: b) = a :: splitOnChar c b := by
  induction a with
  | nil =>
    rw [List.nil_append, splitOnChar_cons_sep]
  | cons x rest ih =>
    have hx : x ≠ c := fun he => h (by simp [he])
    rw [List.cons_append, splitOnChar_cons_nosep _ hx, ih (fun hr => h (by simp [hr]))]
    rfl

theorem splitOnChar_joinWith {c : Char} {segs : List PyStr} (hne : segs ≠ [])
    (h : ∀ s ∈ segs, c ∉ s) :
    splitOnChar c (joinWith [c] segs) = segs := by
  induction segs with
  | nil => exact absurd rfl hne
  | cons s rest ih =>
    cases rest with
    | nil => exact splitOnChar_nosep (h s (by simp))
    | cons t rest2 =>
      have hj : joinWith [c] (s :: t :: rest2) = s ++ c :: joinWith [c] (t :: rest2) := by
        rw [joinWith]; simp
      rw [hj, splitOnChar_append (h s (by simp)),
          ih (by simp) (fun x hx => h x (by simp [hx]))]

theorem splitFirstCh_nosep {c : Char} {s : PyStr} (h : c ∉ s) :
    splitFirstCh c s = none := by
  induction s with
  | nil => rfl
  | cons x rest ih =>
    have hx : x ≠ c := fun he => h (by simp [he])
    rw [splitFirstCh]
    rw [if_neg hx, ih (fun hr => h (by simp [hr]))]
    rfl

theorem splitFirstCh_append {c : Char} {a b : PyStr} (h : c ∉ a) :
    splitFirstCh c (a ++ c :: b) = some (a, b) := by
  induction a with
  | nil =>
    rw [List.nil_append, splitFirstCh]
    rw [if_pos rfl]
  | cons x rest ih =>
    have hx : x ≠ c := fun he => h (by simp [he])
    rw [List.cons_append, splitFirstCh]
    rw [if_neg hx, ih (fun hr => h (by simp [hr]))]
    rfl

/-! ### Facts about digests: byte ranges, hexadecimal character sets and
lengths. -/

theorem wordBytes_lt256 {w : Nat} : ∀ b ∈ wordBytes w, b < 256 := by
  intro b hb
  simp [wordBytes] at hb
  rcases hb with h | h | h | h <;> omega

theorem sha256_lt256 {msg : List Nat} : ∀ b ∈ sha256 msg, b < 256 := by
  intro b hb
  unfold sha256 at hb
  simp only [List.mem_append] at hb
  rcases hb with ((((((h | h) | h) | h) | h) | h) | h) | h <;> exact wordBytes_lt256 b h

theorem sha256_length (msg : List Nat) : (sha256 msg).length = 32 := by
  unfold sha256
  simp [wordBytes]

theorem bytesToHexLower_length (bs : List Nat) :
    (bytesToHexLower bs).length = 2 * bs.length := by
  induction bs with
  | nil => rfl
  | cons b rest ih =>
    rw [show bytesToHexLower (b :: rest) =
      [hexCharLower (b / 16), hexCharLower (b % 16)] ++ bytesToHexLower rest from rfl]
    rw [List.length_append, ih]
    simp
    omega

theorem hexCharLower_facts {n : Nat} (h : n < 16) :
    hexCharLower n ≠ '%' ∧ hexCharLower n ≠ '+' ∧ hexCharLower n ≠ '&' ∧
      hexCharLower n ≠ '=' ∧ (hexCharLower n).toNat < 128 := by
  interval_cases n <;> decide

theorem mem_bytesToHexLower_facts {bs : List Nat} {c : Char} (hb : ∀ b ∈ bs, b < 256)
    (h : c ∈ bytesToHexLower bs) :
    c ≠ '%' ∧ c ≠ '+' ∧ c ≠ '&' ∧ c ≠ '=' ∧ c.toNat < 128 := by
  unfold bytesToHexLower at h
  rcases mem_catMap h with ⟨b, hbm, hc⟩
  have hblt : b < 256 := hb b hbm
  rcases hc with _ | ⟨_, hc2⟩
  · exact hexCharLower_facts (by omega)
  · rcases hc2 with _ | ⟨_, hc3⟩
    · exact hexCharLower_facts (by omega)
    · cases hc3

theorem compute_hmac_hex_facts {t d : PyStr} :
    ∀ c ∈ _compute_hmac_hex t d,
      c ≠ '%' ∧ c ≠ '+' ∧ c ≠ '&' ∧ c ≠ '=' ∧ c.toNat < 128 := by
  intro c hc
  unfold _compute_hmac_hex hmacSha256 at hc
  exact mem_bytesToHexLower_facts sha256_lt256 hc

theorem compute_hmac_hex_length (t d : PyStr) : (_compute_hmac_hex t d).length = 64 := by
  unfold _compute_hmac_hex hmacSha256
  rw [bytesToHexLower_length, sha256_length]

theorem compute_hmac_hex_ne_nil (t d : PyStr) : _compute_hmac_hex t d ≠ [] := by
  intro he
  have := compute_hmac_hex_length t d
  rw [he] at this
  simp at this

/-! ### The query-string round trip for the serializer. -/

theorem parseSeg_pair (k v : PyStr) : parseSeg (serializePair (k, v)) = some (k, v) := by
  unfold parseSeg serializePair
  rw [if_neg (by simp)]
  have heq : '=' ∉ pctEncodeAll k := fun hm => (mem_pctEncodeAll_facts hm).2.1 rfl
  rw [splitFirstCh_append heq]
  dsimp only
  have hpk : '+' ∉ pctEncodeAll k := fun hm => (mem_pctEncodeAll_facts hm).2.2.1 rfl
  have hpv : '+' ∉ pctEncodeAll v := fun hm => (mem_pctEncodeAll_facts hm).2.2.1 rfl
  rw [plusToSpace_id hpk, plusToSpace_id hpv, pyUnquote_pctEncodeAll, pyUnquote_pctEncodeAll]

theorem parseSeg_hash {sig : PyStr} (h1 : '%' ∉ sig) (h2 : '+' ∉ sig) :
    parseSeg (kHash ++ '=' :: sig) = some (kHash, sig) := by
  unfold parseSeg
  rw [if_neg (by simp [kHash, ofStr])]
  rw [splitFirstCh_append (by decide)]
  dsimp only
  rw [plusToSpace_id (show '+' ∉ kHash by decide), plusToSpace_id h2, pyUnquote_nopct h1]
  have hq : pyUnquote kHash = kHash := by decide
  rw [hq]

theorem pyParseQsl_joinWith {segs : List PyStr} (hne : segs ≠ [])
    (h : ∀ s ∈ segs, s ≠ [] ∧ '&' ∉ s) :
    pyParseQsl (joinWith ['&'] segs) = segs.filterMap parseSeg := by
  unfold pyParseQsl
  have hj : joinWith ['&'] segs ≠ [] := by
    cases segs with
    | nil => exact absurd rfl hne
    | cons s rest =>
      cases rest with
      | nil =>
        show s ≠ []
        exact (h s (by simp)).1
      | cons t rest2 =>
        rw [joinWith]
        have := (h s (by simp)).1
        cases s with
        | nil => exact absurd rfl this
        | cons a as => simp
  rw [if_neg hj, splitOnChar_joinWith hne (fun s hs => (h s hs).2)]

theorem filterMap_parseSeg_pairs (m : FieldDict) :
    (m.map serializePair).filterMap parseSeg = m := by
  induction m with
  | nil => rfl
  | cons p rest ih =>
    rw [List.map_cons, List.filterMap_cons]
    have : parseSeg (serializePair p) = some p := parseSeg_pair p.1 p.2
    rw [this, ih]

theorem pyParseQsl_serializeCredential {m : FieldDict} {sig : PyStr}
    (h1 : '%' ∉ sig) (h2 : '+' ∉ sig) (h3 : '&' ∉ sig) :
    pyParseQsl (serializeCredential m sig) = m ++ [(kHash, sig)] := by
  unfold serializeCredential
  rw [pyParseQsl_joinWith (by simp)
      (by
        intro s hs
        rcases List.mem_append.1 hs with hs1 | hs2
        · rcases List.mem_map.1 hs1 with ⟨p, _, rfl⟩
          refine ⟨by simp [serializePair], ?_⟩
          intro hm
          unfold serializePair at hm
          rcases List.mem_append.1 hm with hma | hmb
          · exact (mem_pctEncodeAll_facts hma).1 rfl
          · rcases List.mem_cons.1 hmb with he | hmc
            · exact absurd he.symm (by decide)
            · exact (mem_pctEncodeAll_facts hmc).1 rfl
        · rcases List.mem_singleton.1 hs2 with rfl
          refine ⟨by simp [kHash, ofStr], ?_⟩
          intro hm
          rcases List.mem_append.1 hm with hma | hmb
          · revert hma; decide
          · rcases List.mem_cons.1 hmb with he | hmc
            · exact absurd he.symm (by decide)
            · exact h3 hmc)]
  rw [List.filterMap_append, filterMap_parseSeg_pairs]
  rw [List.filterMap_cons, parseSeg_hash h1 h2]
  rfl

/-! ### Dict lemmas. -/

theorem dictHasKey_iff {d : List (PyStr × α)} {k : PyStr} :
    dictHasKey d k = true ↔ k ∈ d.map Prod.fst := by
  unfold dictHasKey
  rw [List.any_eq_true]
  constructor
  · rintro ⟨p, hp, he⟩
    exact List.mem_map.2 ⟨p, hp, of_decide_eq_true he⟩
  · intro hm
    rcases List.mem_map.1 hm with ⟨p, hp, he⟩
    exact ⟨p, hp, decide_eq_true he⟩

theorem dictHasKey_eq_false {d : List (PyStr × α)} {k : PyStr}
    (h : k ∉ d.map Prod.fst) : dictHasKey d k = false := by
  cases hb : dictHasKey d k
  · rfl
  · exact absurd (dictHasKey_iff.1 hb) h

theorem dictInsert_append {d : List (PyStr × α)} {k : PyStr} {v : α}
    (h : k ∉ d.map Prod.fst) : dictInsert d k v = d ++ [(k, v)] := by
  have hf : dictHasKey d k = false := dictHasKey_eq_false h
  unfold dictInsert
  rw [show (d.any fun p => p.1 = k) = dictHasKey d k from rfl, hf]
  simp

theorem dictOf_aux_self {l : List (PyStr × α)} :
    ∀ acc : List (PyStr × α), (((acc ++ l).map Prod.fst).Nodup) →
      l.foldl (fun d p => dictInsert d p.1 p.2) acc = acc ++ l := by
  induction l with
  | nil => intro acc _; simp
  | cons p rest ih =>
    intro acc h
    rw [List.foldl_cons]
    have hk : p.1 ∉ acc.map Prod.fst := by
      intro hmem
      rw [List.map_append] at h
      have hd := (List.nodup_append.1 h).2.2
      exact hd hmem (List.mem_map.2 ⟨p, by simp, rfl⟩)
    rw [dictInsert_append hk]
    have h2 : (((acc ++ [p]) ++ rest).map Prod.fst).Nodup := by
      rw [List.append_assoc]
      simpa using h
    rw [ih (acc ++ [p]) h2, List.append_assoc]
    simp

theorem dictOf_self {l : List (PyStr × α)} (h : (l.map Prod.fst).Nodup) :
    dictOf l = l := by
  unfold dictOf
  simpa using dictOf_aux_self [] (by simpa using h)

theorem dictGet?_cons {p : PyStr × α} {d : List (PyStr × α)} {k : PyStr} :
    dictGet? (p :: d) k = if p.1 = k then some p.2 else dictGet? d k := by
  unfold dictGet?
  by_cases hp : p.1 = k
  · rw [if_pos hp, List.find?_cons_of_pos _ (by simpa using hp)]
    rfl
  · rw [if_neg hp, List.find?_cons_of_neg _ (by simpa using hp)]

theorem dictGet?_append_right {d1 d2 : List (PyStr × α)} {k : PyStr}
    (h : k ∉ d1.map Prod.fst) :
    dictGet? (d1 ++ d2) k = dictGet? d2 k := by
  induction d1 with
  | nil => rfl
  | cons p rest ih =>
    have hp : ¬ (p.1 = k) := fun he => h (List.mem_map.2 ⟨p, by simp, he⟩)
    rw [List.cons_append, dictGet?_cons, if_neg hp]
    exact ih (fun hm => h (by simp [hm]))

theorem dictGet?_singleton {k : PyStr} {v : α} :
    dictGet? [(k, v)] k = some v := by
  rw [dictGet?_cons, if_pos rfl]

theorem dictRemove_eq_self {d : List (PyStr × α)} {k : PyStr}
    (h : k ∉ d.map Prod.fst) : dictRemove d k = d := by
  unfold dictRemove
  rw [List.filter_eq_self]
  intro p hp
  have : p.1 ≠ k := fun he => h (List.mem_map.2 ⟨p, hp, he⟩)
  simpa using this

theorem dictRemove_append_key {m : FieldDict} {k sig : PyStr}
    (h : k ∉ m.map Prod.fst) :
    dictRemove (m ++ [(k, sig)]) k = m := by
  unfold dictRemove
  rw [List.filter_append]
  have h1 : m.filter (fun p => ¬ p.1 = k) = m := by
    rw [List.filter_eq_self]
    intro p hp
    have : p.1 ≠ k := fun he => h (List.mem_map.2 ⟨p, hp, he⟩)
    simpa using this
  rw [h1]
  simp

/-! ### The full verification round trip on a serialized, correctly
signed credential. -/

theorem sig_no_pct {t d : PyStr} : '%' ∉ _compute_hmac_hex t d :=
  fun hm => (compute_hmac_hex_facts _ hm).1 rfl

theorem sig_no_plus {t d : PyStr} : '+' ∉ _compute_hmac_hex t d :=
  fun hm => (compute_hmac_hex_facts _ hm).2.1 rfl

theorem sig_no_amp {t d : PyStr} : '&' ∉ _compute_hmac_hex t d :=
  fun hm => (compute_hmac_hex_facts _ hm).2.2.1 rfl

theorem parse_init_data_serializeCredential {m : FieldDict} {sig : PyStr}
    (hnod : (m.map Prod.fst).Nodup) (hhk : kHash ∉ m.map Prod.fst)
    (h1 : '%' ∉ sig) (h2 : '+' ∉ sig) (h3 : '&' ∉ sig) :
    parse_init_data (serializeCredential m sig) = m ++ [(kHash, sig)] := by
  unfold parse_init_data
  rw [pyParseQsl_serializeCredential h1 h2 h3, dictOf_self]
  rw [List.map_append, List.nodup_append]
  refine ⟨hnod, by simp, ?_⟩
  intro a ha hb
  simp at hb
  rw [hb] at ha
  exact hhk ha

theorem try_parse_variants_serializeCredential {m : FieldDict} {sig : PyStr}
    (hnod : (m.map Prod.fst).Nodup) (hhk : kHash ∉ m.map Prod.fst)
    (h1 : '%' ∉ sig) (h2 : '+' ∉ sig) (h3 : '&' ∉ sig) :
    _try_parse_variants (serializeCredential m sig) =
      (m ++ [(kHash, sig)], ofStr "raw", serializeCredential m sig) := by
  unfold _try_parse_variants
  rw [parse_init_data_serializeCredential hnod hhk h1 h2 h3]
  rw [if_pos (dictHasKey_iff.2 (by simp))]

theorem verify_full_roundtrip {m : FieldDict} {bot_token : PyStr}
    (hnod : (m.map Prod.fst).Nodup) (hhk : kHash ∉ m.map Prod.fst) :
    verify_init_data_full (serializeCredential m (signFields bot_token m)) bot_token =
      (.success (coerceAuthDate m), [⟨.base, true⟩],
       [.infoVerified (ofStr "raw") (payloadGet? (coerceAuthDate m) kId)]) := by
  have hvar := @try_parse_variants_serializeCredential m (signFields bot_token m)
    hnod hhk sig_no_pct sig_no_plus sig_no_amp
  unfold verify_init_data_full
  rw [hvar]
  dsimp only
  rw [dictGet?_append_right hhk, dictGet?_singleton]
  rw [dictRemove_append_key hhk]
  dsimp only
  rw [if_neg (show ¬ signFields bot_token m = [] from compute_hmac_hex_ne_nil _ _)]
  have hcmp : hmacCompareDigest
      (_compute_hmac_hex bot_token (_build_data_check_string_from_parsed m))
      (signFields bot_token m) = true := by
    unfold signFields hmacCompareDigest
    simp
  rw [if_pos hcmp]

/-! ### The recovery loop: it succeeds exactly when some candidate digest
matches, and every comparison it performs is the plain one. -/

theorem userNormLoop_ok_iff (parsed : FieldDict) (ph t : PyStr)
    (l : List (PyStr × PyStr)) :
    (userNormLoop parsed ph t l).1 = true ↔
      ∃ nv ∈ l, candMatches parsed ph t nv.2 = true := by
  induction l with
  | nil => simp [userNormLoop]
  | cons nv rest ih =>
    rw [userNormLoop]
    by_cases hc : candMatches parsed ph t nv.2 = true
    · rw [if_pos hc]
      dsimp only
      constructor
      · intro _
        exact ⟨nv, by simp, hc⟩
      · intro _
        rfl
    · rw [if_neg hc]
      dsimp only
      constructor
      · intro h1
        rcases ih.1 h1 with ⟨x, hx, hm⟩
        exact ⟨x, by simp [hx], hm⟩
      · rintro ⟨x, hx, hm⟩
        rcases List.mem_cons.1 hx with rfl | hx2
        · exact absurd hm hc
        · exact ih.2 ⟨x, hx2, hm⟩

theorem userNormLoop_events (parsed : FieldDict) (ph t : PyStr)
    (l : List (PyStr × PyStr)) :
    ∀ e ∈ (userNormLoop parsed ph t l).2.2.2, e = ⟨.recovery, false⟩ := by
  induction l with
  | nil =>
    intro e he
    simp [userNormLoop] at he
  | cons nv rest ih =>
    intro e he
    rw [userNormLoop] at he
    by_cases hc : candMatches parsed ph t nv.2 = true
    · rw [if_pos hc] at he
      simpa using he
    · rw [if_neg hc] at he
      dsimp only at he
      rcases List.mem_cons.1 he with rfl | he2
      · rfl
      · exact ih e he2

theorem user_norm_events {parsed : FieldDict} {ph t : PyStr} :
    ∀ e ∈ (_try_user_normalizations_and_verify parsed ph t).2.2.2,
      e = ⟨.recovery, false⟩ := by
  intro e he
  unfold _try_user_normalizations_and_verify at he
  rcases hu : dictGet? parsed kUser with _ | w
  · rw [hu] at he
    cases he
  · rw [hu] at he
    exact userNormLoop_events _ _ _ _ e he

theorem dedupByValue_mem_value {l : List (PyStr × PyStr)} {v : PyStr} :
    ∀ seen : List PyStr, (∃ nv ∈ l, nv.2 = v) → v ∉ seen →
      ∃ nv ∈ dedupByValue l seen, nv.2 = v := by
  induction l with
  | nil =>
    rintro seen ⟨nv, h, _⟩ _
    cases h
  | cons p rest ih =>
    rintro seen ⟨nv, hmem, hv⟩ hns
    rw [dedupByValue]
    by_cases hp : p.2 ∈ seen
    · rw [if_pos hp]
      rcases List.mem_cons.1 hmem with rfl | h2
      · exact absurd (hv ▸ hp) hns
      · exact ih seen ⟨nv, h2, hv⟩ hns
    · rw [if_neg hp]
      by_cases hvp : v = p.2
      · exact ⟨p, by simp, hvp.symm⟩
      · rcases List.mem_cons.1 hmem with rfl | h2
        · exact absurd hv.symm hvp
        · rcases ih (p.2 :: seen) ⟨nv, h2, hv⟩
            (by
              intro hin
              rcases List.mem_cons.1 hin with he | he
              · exact hvp he
              · exact hns he) with ⟨q, hq, hqv⟩
          exact ⟨q, by simp [hq], hqv⟩

theorem user_norm_ok {parsed : FieldDict} {ph t w : PyStr}
    (hu : dictGet? parsed kUser = some w)
    (hv : candMatches parsed ph t (pyReplace w (ofStr "\\/") (ofStr "/")) = true) :
    (_try_user_normalizations_and_verify parsed ph t).1 = true := by
  unfold _try_user_normalizations_and_verify
  rw [hu]
  dsimp only
  rw [userNormLoop_ok_iff]
  have hcand : ∃ nv ∈ userNormCandidates w,
      nv.2 = pyReplace w (ofStr "\\/") (ofStr "/") := by
    refine ⟨(ofStr "replace_escaped_slashes", pyReplace w (ofStr "\\/") (ofStr "/")), ?_, rfl⟩
    unfold userNormCandidates
    exact List.mem_append.2 (Or.inl (List.mem_append.2 (Or.inl (by simp))))
  rcases dedupByValue_mem_value [] hcand (by simp) with ⟨q, hq, hqv⟩
  exact ⟨q, hq, by rw [hqv]; exact hv⟩

/-! ### Escaped-slash round trip for the profile-field recovery. -/

theorem escapeSlashes_cons_slash (rest : PyStr) :
    escapeSlashes ('/' :: rest) = '\\' :: '/' :: escapeSlashes rest := by
  simp [escapeSlashes, catMap]

theorem escapeSlashes_cons_other {c : Char} (rest : PyStr) (h : c ≠ '/') :
    escapeSlashes (c :: rest) = c :: escapeSlashes rest := by
  simp [escapeSlashes, catMap, h]

theorem pyReplaceGo_unescape {v : PyStr} (hnb : '\\' ∉ v) :
    ∀ fuel, (escapeSlashes v).length ≤ fuel →
      pyReplaceGo (ofStr "\\/") (ofStr "/") fuel (escapeSlashes v) = v := by
  induction v with
  | nil =>
    intro fuel _
    cases fuel <;> rfl
  | cons c rest ih =>
    intro fuel hf
    by_cases hc : c = '/'
    · subst hc
      rw [escapeSlashes_cons_slash] at hf ⊢
      cases fuel with
      | zero => simp at hf
      | succ f =>
        rw [pyReplaceGo]
        have hpref : isPrefixCh (ofStr "\\/") ('\\' :: '/' :: escapeSlashes rest) = true := by
          show isPrefixCh ['\\', '/'] _ = true
          simp [isPrefixCh]
        rw [if_pos hpref]
        rw [show (('\\' :: '/' :: escapeSlashes rest).drop (ofStr "\\/").length) =
          escapeSlashes rest from rfl]
        rw [ih (fun hm => hnb (by simp [hm])) f (by simp at hf ⊢; omega)]
        rfl
    · have hcb : c ≠ '\\' := by
        intro he
        exact hnb (by simp [he])
      rw [escapeSlashes_cons_other _ hc] at hf ⊢
      cases fuel with
      | zero => simp at hf
      | succ f =>
        rw [pyReplaceGo]
        have hpref : isPrefixCh (ofStr "\\/") (c :: escapeSlashes rest) = false := by
          show isPrefixCh ['\\', '/'] _ = false
          simp [isPrefixCh]
          intro he
          exact absurd he.symm hcb
        rw [if_neg (by rw [hpref]; simp)]
        rw [ih (fun hm => hnb (by simp [hm])) f (by simp at hf ⊢; omega)]

theorem pyReplace_unescape {v : PyStr} (hnb : '\\' ∉ v) :
    pyReplace (escapeSlashes v) (ofStr "\\/") (ofStr "/") = v := by
  unfold pyReplace
  rw [if_neg (by decide)]
  exact pyReplaceGo_unescape hnb _ le_rfl

/-! ### The lexicographic string order used by `sorted`, and
order-independence of the canonical check string. -/

theorem lexLtB_irrefl (a : PyStr) : lexLtB a a = false := by
  induction a with
  | nil => rfl
  | cons c rest ih => simp [lexLtB, ih]

theorem lexLtB_trans : ∀ {a b c : PyStr},
    lexLtB a b = true → lexLtB b c = true → lexLtB a c = true
  | [], b, c, h1, h2 => by
    cases b with
    | nil => cases h1
    | cons y ys =>
      cases c with
      | nil => cases h2
      | cons z zs => rfl
  | x :: xs, b, c, h1, h2 => by
    cases b with
    | nil => cases h1
    | cons y ys =>
      cases c with
      | nil => cases h2
      | cons z zs =>
        rw [lexLtB] at h1 h2 ⊢
        by_cases hxy : x < y
        · rw [if_pos hxy] at h1
          by_cases hyz : y < z
          · rw [if_pos (lt_trans hxy hyz)]
          · rw [if_neg hyz] at h2
            by_cases hzy : z < y
            · rw [if_pos hzy] at h2
              cases h2
            · rw [if_neg hzy] at h2
              have hyz2 : y = z := le_antisymm (not_lt.1 hzy) (not_lt.1 hyz)
              rw [if_pos (hyz2 ▸ hxy)]
        · rw [if_neg hxy] at h1
          by_cases hyx : y < x
          · rw [if_pos hyx] at h1
            cases h1
          · rw [if_neg hyx] at h1
            have hxy2 : x = y := le_antisymm (not_lt.1 hyx) (not_lt.1 hxy)
            subst hxy2
            by_cases hyz : x < z
            · rw [if_pos hyz]
            · rw [if_neg hyz] at h2 ⊢
              by_cases hzy : z < x
              · rw [if_pos hzy] at h2
                cases h2
              · rw [if_neg hzy] at h2 ⊢
                exact lexLtB_trans h1 h2

theorem lexLtB_antisymm : ∀ {a b : PyStr},
    lexLtB a b = false → lexLtB b a = false → a = b
  | [], b, h1, _ => by
    cases b with
    | nil => rfl
    | cons y ys => cases h1
  | x :: xs, b, h1, h2 => by
    cases b with
    | nil => cases h2
    | cons y ys =>
      rw [lexLtB] at h1 h2
      by_cases hxy : x < y
      · rw [if_pos hxy] at h1
        cases h1
      · by_cases hyx : y < x
        · rw [if_pos hyx] at h2
          cases h2
        · rw [if_neg hxy, if_neg hyx] at h1
          rw [if_neg hyx, if_neg hxy] at h2
          have hx : x = y := le_antisymm (not_lt.1 hyx) (not_lt.1 hxy)
          have ht : xs = ys := lexLtB_antisymm h1 h2
          rw [hx, ht]

theorem lexLtB_asymm {a b : PyStr} (h : lexLtB a b = true) : lexLtB b a = false := by
  cases hb : lexLtB b a
  · rfl
  · have := lexLtB_trans h hb
    rw [lexLtB_irrefl] at this
    cases this

instance : IsTotal PyStr (fun a b => lexLeB a b = true) := by
  constructor
  intro a b
  unfold lexLeB
  cases hab : lexLtB b a
  · left; rfl
  · right
    rw [lexLtB_asymm hab]
    rfl

instance : IsTrans PyStr (fun a b => lexLeB a b = true) := by
  constructor
  intro a b c h1 h2
  unfold lexLeB at h1 h2 ⊢
  rw [Bool.not_eq_true'] at h1 h2 ⊢
  cases hca : lexLtB c a
  · rfl
  · by_cases hcb : lexLtB c b = true
    · rw [hcb] at h2
      cases h2
    · have hcb2 : lexLtB c b = false := by
        cases hx : lexLtB c b
        · rfl
        · exact absurd hx hcb
      by_cases hbc : lexLtB b c = true
      · have := lexLtB_trans hbc hca
        rw [this] at h1
        cases h1
      · have hbc2 : lexLtB b c = false := by
          cases hx : lexLtB b c
          · rfl
          · exact absurd hx hbc
        have hbceq : b = c := lexLtB_antisymm hbc2 hcb2
        rw [hbceq] at h1
        rw [hca] at h1
        cases h1

instance : IsAntisymm PyStr (fun a b => lexLeB a b = true) := by
  constructor
  intro a b h1 h2
  unfold lexLeB at h1 h2
  rw [Bool.not_eq_true'] at h1 h2
  exact lexLtB_antisymm h2 h1

theorem pySorted_eq_of_perm {l1 l2 : List PyStr} (hp : l1.Perm l2) :
    pySorted l1 = pySorted l2 := by
  unfold pySorted
  exact List.eq_of_perm_of_sorted
    ((List.perm_insertionSort _ _).trans (hp.trans (List.perm_insertionSort _ _).symm))
    (List.sorted_insertionSort _ _) (List.sorted_insertionSort _ _)

theorem dictGet?_eq_none {d : List (PyStr × α)} {k : PyStr}
    (h : k ∉ d.map Prod.fst) : dictGet? d k = none := by
  induction d with
  | nil => rfl
  | cons p rest ih =>
    rw [dictGet?_cons, if_neg (fun he => h (List.mem_map.2 ⟨p, by simp, he⟩))]
    exact ih (fun hm => h (by simp [hm]))

theorem dictGet?_of_mem {d : List (PyStr × α)} {p : PyStr × α}
    (hnod : (d.map Prod.fst).Nodup) (hm : p ∈ d) :
    dictGet? d p.1 = some p.2 := by
  induction d with
  | nil => cases hm
  | cons q rest ih =>
    rcases List.mem_cons.1 hm with rfl | h2
    · rw [dictGet?_cons, if_pos rfl]
    · rw [dictGet?_cons]
      have hq : q.1 ≠ p.1 := by
        intro he
        rw [List.map_cons, List.nodup_cons] at hnod
        exact hnod.1 (he ▸ List.mem_map.2 ⟨p, h2, rfl⟩)
      rw [if_neg hq]
      exact ih (by rw [List.map_cons, List.nodup_cons] at hnod; exact hnod.2) h2

theorem dictGet?_some_mem {d : List (PyStr × α)} {k : PyStr} {v : α}
    (h : dictGet? d k = some v) : ∃ p ∈ d, p.1 = k ∧ p.2 = v := by
  induction d with
  | nil => cases h
  | cons p rest ih =>
    rw [dictGet?_cons] at h
    by_cases hp : p.1 = k
    · rw [if_pos hp] at h
      exact ⟨p, by simp, hp, Option.some.inj h⟩
    · rw [if_neg hp] at h
      rcases ih h with ⟨q, hq, hq1, hq2⟩
      exact ⟨q, by simp [hq], hq1, hq2⟩

theorem dictGet?_eq_of_perm {l1 l2 : FieldDict} (hp : l1.Perm l2)
    (hnod : (l1.map Prod.fst).Nodup) (k : PyStr) :
    dictGet? l1 k = dictGet? l2 k := by
  have hnod2 : (l2.map Prod.fst).Nodup := (hp.map Prod.fst).nodup_iff.1 hnod
  rcases hg : dictGet? l1 k with _ | v
  · have hk : k ∉ l1.map Prod.fst := by
      intro hm
      rcases List.mem_map.1 hm with ⟨p, hpm, he⟩
      have := dictGet?_of_mem hnod hpm
      rw [he, hg] at this
      cases this
    have hk2 : k ∉ l2.map Prod.fst := fun hm => hk ((hp.map Prod.fst).mem_iff.2 hm)
    rw [dictGet?_eq_none hk2]
  · rcases dictGet?_some_mem hg with ⟨p, hpm, hp1, hp2⟩
    have hm2 : p ∈ l2 := hp.mem_iff.1 hpm
    have := dictGet?_of_mem hnod2 hm2
    rw [hp1, hp2] at this
    rw [this]

theorem build_dcs_perm {l1 l2 : FieldDict} (hp : l1.Perm l2)
    (hnod : (l1.map Prod.fst).Nodup) :
    _build_data_check_string_from_parsed l1 = _build_data_check_string_from_parsed l2 := by
  unfold _build_data_check_string_from_parsed
  rw [show dictKeys l1 = l1.map Prod.fst from rfl, show dictKeys l2 = l2.map Prod.fst from rfl]
  rw [pySorted_eq_of_perm (hp.map Prod.fst)]
  apply congrArg
  apply List.map_congr_left
  intro k _
  rw [dictGet?_eq_of_perm hp hnod k]

/-! ### Parsing a serialized field map without a signature field, and the
plain (unencoded-pair) parse. -/

theorem serializePair_seg (p : PyStr × PyStr) :
    serializePair p ≠ [] ∧ '&' ∉ serializePair p := by
  constructor
  · simp [serializePair]
  · intro hm
    unfold serializePair at hm
    rcases List.mem_append.1 hm with hma | hmb
    · exact (mem_pctEncodeAll_facts hma).1 rfl
    · rcases List.mem_cons.1 hmb with he | hmc
      · exact absurd he.symm (by decide)
      · exact (mem_pctEncodeAll_facts hmc).1 rfl

theorem parse_init_data_serializeFields {m : FieldDict}
    (hnod : (m.map Prod.fst).Nodup) :
    parse_init_data (serializeFields m) = m := by
  cases m with
  | nil => rfl
  | cons p rest =>
    unfold parse_init_data serializeFields
    rw [pyParseQsl_joinWith (by simp)
        (fun s hs => by
          rcases List.mem_map.1 hs with ⟨q, _, rfl⟩
          exact serializePair_seg q),
      filterMap_parseSeg_pairs]
    exact dictOf_self hnod

theorem parseSeg_plain {k v : PyStr} (hk : '=' ∉ k) :
    parseSeg (k ++ '=' :: v) = some (pyUnquote (plusToSpace k), pyUnquote (plusToSpace v)) := by
  unfold parseSeg
  rw [if_neg (by simp), splitFirstCh_append hk]

theorem filterMap_parseSeg_plain {l : List (PyStr × PyStr)}
    (h : ∀ p ∈ l, '=' ∉ p.1) :
    (l.map (fun p => p.1 ++ '=' :: p.2)).filterMap parseSeg =
      l.map (fun p => (pyUnquote (plusToSpace p.1), pyUnquote (plusToSpace p.2))) := by
  induction l with
  | nil => rfl
  | cons p rest ih =>
    rw [List.map_cons, List.filterMap_cons, parseSeg_plain (h p (by simp))]
    rw [ih (fun q hq => h q (by simp [hq]))]
    rfl

/-! ### Control-flow lemmas for `verify_init_data`. -/

theorem verifyCompares_ct (i t : PyStr) :
    ∀ e ∈ verifyCompares i t, e.constantTime = decide (e.site = CompareSite.base) := by
  intro e he
  rcases hg : dictGet? (_try_parse_variants i).1 kHash with _ | ph
  · unfold verifyCompares verify_init_data_full at he
    dsimp only at he
    rw [hg] at he
    cases he
  · unfold verifyCompares verify_init_data_full at he
    dsimp only at he
    rw [hg] at he
    dsimp only at he
    by_cases hph : ph = []
    · rw [if_pos hph] at he
      cases he
    · rw [if_neg hph] at he
      by_cases hb : hmacCompareDigest
          (_compute_hmac_hex t (_build_data_check_string_from_parsed
            (dictRemove (_try_parse_variants i).1 kHash))) ph = true
      · rw [if_pos hb] at he
        rcases List.mem_singleton.1 he with rfl
        rfl
      · rw [if_neg hb] at he
        by_cases hok : (_try_user_normalizations_and_verify
            (dictRemove (_try_parse_variants i).1 kHash) ph t).1 = true
        · rw [if_pos hok] at he
          dsimp only at he
          rcases List.mem_cons.1 he with rfl | he2
          · rfl
          · rw [user_norm_events e he2]
            rfl
        · rw [if_neg hok] at he
          dsimp only at he
          rcases List.mem_cons.1 he with rfl | he2
          · rfl
          · rw [user_norm_events e he2]
            rfl

theorem verify_empty_hash (i t : PyStr)
    (h : dictGet? (_try_parse_variants i).1 kHash = some []) :
    verify_init_data i t = .failure (ofStr "no hash in init_data") ∧
      verifyCompares i t = [] := by
  unfold verify_init_data verifyCompares verify_init_data_full
  dsimp only
  rw [h]
  dsimp only
  rw [if_pos rfl]
  exact ⟨rfl, rfl⟩

/-! ### Success of verification when the presented profile field is the
escaped-slash mangling of the signed one. -/

theorem verify_success_of_user_escaped {m : FieldDict} {t v : PyStr}
    (hnod : (m.map Prod.fst).Nodup) (hhk : kHash ∉ m.map Prod.fst)
    (hu : dictGet? m kUser = some (escapeSlashes v)) (hub : '\\' ∉ v) :
    ∃ p, verify_init_data
        (serializeCredential m (signFields t (dictInsert m kUser v))) t =
      .success p := by
  have hvar := @try_parse_variants_serializeCredential
    m (signFields t (dictInsert m kUser v)) hnod hhk
    sig_no_pct sig_no_plus sig_no_amp
  unfold verify_init_data verify_init_data_full
  rw [hvar]
  dsimp only
  rw [dictGet?_append_right hhk, dictGet?_singleton, dictRemove_append_key hhk]
  dsimp only
  rw [if_neg (show ¬ signFields t (dictInsert m kUser v) = [] from
    compute_hmac_hex_ne_nil _ _)]
  by_cases hb : hmacCompareDigest
      (_compute_hmac_hex t (_build_data_check_string_from_parsed m))
      (signFields t (dictInsert m kUser v)) = true
  · rw [if_pos hb]
    exact ⟨_, rfl⟩
  · rw [if_neg hb]
    have hok : (_try_user_normalizations_and_verify m
        (signFields t (dictInsert m kUser v)) t).1 = true := by
      apply user_norm_ok hu
      rw [pyReplace_unescape hub]
      unfold candMatches pyStrEqPlain signFields
      simp
    rw [if_pos hok]
    exact ⟨_, rfl⟩

/-! ### The canonicalizer refines its specification contract. -/

theorem specTail_eq (s : PyStr) (parsed : FieldDict) (variant norm : PyStr) :
    tryParseStep3 s parsed variant norm =
      match List.find? (fun a => dictHasKey a.1 kHash)
          ((if hasPctMarker s then
              [(parse_init_data (pyUnquote s), ofStr "unquote_once", pyUnquote s)]
            else []) ++
           [(parse_init_data (pyUnquote (pyUnquote s)), ofStr "unquote_twice",
             pyUnquote (pyUnquote s))]) with
      | some a => a
      | none => (parse_init_data (pyUnquote (pyUnquote s)), ofStr "unquote_twice",
          pyUnquote (pyUnquote s)) := by
  unfold tryParseStep3 tryParseStep4 hasPctMarker
  dsimp only
  by_cases hmk : (containsSub (asciiLower s) (ofStr "%3d") ||
      containsSub (asciiLower s) (ofStr "%26") ||
      containsSub (asciiLower s) (ofStr "%7b")) = true
  · rw [if_pos hmk, if_pos hmk, List.singleton_append]
    by_cases h2 : dictHasKey (parse_init_data (pyUnquote s)) kHash = true
    · rw [if_pos h2, List.find?_cons_of_pos _ (by dsimp only; exact h2)]
    · rw [if_neg h2, List.find?_cons_of_neg _ (by dsimp only; exact h2)]
      by_cases h3 : dictHasKey (parse_init_data (pyUnquote (pyUnquote s))) kHash = true
      · rw [List.find?_cons_of_pos _ (by dsimp only; exact h3)]
      · rw [List.find?_cons_of_neg _ (by dsimp only; exact h3)]
        rfl
  · rw [if_neg hmk, if_neg hmk, List.nil_append]
    by_cases h3 : dictHasKey (parse_init_data (pyUnquote (pyUnquote s))) kHash = true
    · rw [List.find?_cons_of_pos _ (by dsimp only; exact h3)]
    · rw [List.find?_cons_of_neg _ (by dsimp only; exact h3)]
      rfl

theorem attempts_getLastD (s : PyStr) (d : FieldDict × PyStr × PyStr) :
    (parseVariantsSpecAttempts s).getLastD d =
      (parse_init_data (pyUnquote (pyUnquote s)), ofStr "unquote_twice",
       pyUnquote (pyUnquote s)) := by
  unfold parseVariantsSpecAttempts
  dsimp only
  exact List.getLastD_concat _ _ _

theorem try_parse_variants_eq_spec (s : PyStr) :
    _try_parse_variants s = parseVariantsSpec s := by
  unfold _try_parse_variants parseVariantsSpec
  dsimp only
  rw [attempts_getLastD]
  unfold parseVariantsSpecAttempts
  dsimp only
  rw [List.append_assoc, List.append_assoc, List.singleton_append]
  by_cases h0 : dictHasKey (parse_init_data s) kHash = true
  · rw [if_pos h0, List.find?_cons_of_pos _ (by dsimp only; exact h0)]
  · rw [if_neg h0, List.find?_cons_of_neg _ (by dsimp only; exact h0)]
    rcases htg : dictGet? (parse_init_data s) kTg with _ | tv
    · dsimp only
      rw [List.nil_append, specTail_eq]
    · dsimp only
      by_cases h1 : dictHasKey (parse_init_data (pyUnquote tv)) kHash = true
      · rw [if_pos h1, List.singleton_append,
          List.find?_cons_of_pos _ (by dsimp only; exact h1)]
      · rw [if_neg h1, List.singleton_append,
          List.find?_cons_of_neg _ (by dsimp only; exact h1), specTail_eq]

/-- FIPS 180-4 test vector: SHA-256 of the empty message. -/
theorem sha256_vector_empty : bytesToHexLower (sha256 []) =
    ofStr "e3b0c44298fc1c149afbf4c8996fb92427ae41e4649b934ca495991b7852b855" := by
  decide

/-- FIPS 180-4 test vector: SHA-256 of the three-byte message. -/
theorem sha256_vector_abc : bytesToHexLower (sha256 (utf8Encode (ofStr "abc"))) =
    ofStr "ba7816bf8f01cfea414140de5dae2223b00361a396177a9cb410ff61f20015ad" := by
  decide

/-- RFC 2202-style HMAC-SHA256 test vector. -/
theorem hmac_sha256_vector : bytesToHexLower (hmacSha256 (utf8Encode (ofStr "key"))
      (utf8Encode (ofStr "The quick brown fox jumps over the lazy dog"))) =
    ofStr "f7bc83f430538424b13298e6aa6fb143ef4d59a14946175997479dbc2d1a3cd8" := by
  decide

/-! ## The verified claims. -/

/-- C1: round-trip — for every issuer secret and every field map `M` with
unique keys not containing the signature key, verifying the query-string
serialization of `M` together with the signature of section 4.2 step 3
succeeds and returns `M` with the declared type coercion (`auth_date` to
integer) applied. -/
theorem claim_C1_round_trip (bot_token : PyStr) (m : FieldDict)
    (hnod : (m.map Prod.fst).Nodup) (hhk : kHash ∉ m.map Prod.fst) :
    verify_init_data (serializeCredential m (signFields bot_token m)) bot_token =
      .success (coerceAuthDate m) := by
  unfold verify_init_data
  rw [verify_full_roundtrip hnod hhk]

/-- Witness for C1 at a concrete field map (with a space, an equals sign
and an ampersand inside values) and a concrete secret. -/
theorem claim_C1_witness :
    ((([(ofStr "auth_date", ofStr "1700000000"), (ofStr "b c", ofStr "x=y&z")] :
        FieldDict).map Prod.fst).Nodup ∧
      kHash ∉ ([(ofStr "auth_date", ofStr "1700000000"), (ofStr "b c", ofStr "x=y&z")] :
        FieldDict).map Prod.fst) ∧
    verify_init_data
        (serializeCredential
          [(ofStr "auth_date", ofStr "1700000000"), (ofStr "b c", ofStr "x=y&z")]
          (signFields (ofStr "S")
            [(ofStr "auth_date", ofStr "1700000000"), (ofStr "b c", ofStr "x=y&z")]))
        (ofStr "S") =
      .success (coerceAuthDate
        [(ofStr "auth_date", ofStr "1700000000"), (ofStr "b c", ofStr "x=y&z")]) :=
  ⟨⟨by decide, by decide⟩,
    claim_C1_round_trip (ofStr "S")
      [(ofStr "auth_date", ofStr "1700000000"), (ofStr "b c", ofStr "x=y&z")]
      (by decide) (by decide)⟩

/-- C2 counterexample: with the signature computed over the profile field
value containing the literal escaped-slash sequence and the credential
presenting the value with the slash unescaped — exactly the direction the
claim states — verification returns the `hash_mismatch` failure: none of
the recovery transformations re-escapes a plain slash. -/
theorem claim_C2_counterexample :
    verify_init_data
        (serializeCredential [(kUser, ofStr "a/b")]
          (signFields (ofStr "T") [(kUser, ofStr "a\\/b")]))
        (ofStr "T") = .failure (ofStr "hash_mismatch") := by
  decide

/-- C2 amended: the recovery works in the opposite direction — for a
signature computed over a profile field value with plain slashes and a
credential presenting that value with every slash escaped as
backslash-slash, verification succeeds and `hash_mismatch` is not
returned. -/
theorem claim_C2_amended (t v : PyStr) (m : FieldDict)
    (hnod : (m.map Prod.fst).Nodup) (hhk : kHash ∉ m.map Prod.fst)
    (hu : dictGet? m kUser = some (escapeSlashes v)) (hub : '\\' ∉ v) :
    (∃ p, verify_init_data
        (serializeCredential m (signFields t (dictInsert m kUser v))) t =
      .success p) ∧
    verify_init_data
        (serializeCredential m (signFields t (dictInsert m kUser v))) t ≠
      .failure (ofStr "hash_mismatch") := by
  rcases verify_success_of_user_escaped hnod hhk hu hub with ⟨p, hp⟩
  refine ⟨⟨p, hp⟩, ?_⟩
  rw [hp]
  intro he
  cases he

/-- Witness for the amended C2 at a concrete secret, field map and
profile value. -/
theorem claim_C2_witness :
    ((([(kUser, escapeSlashes (ofStr "a/b"))] : FieldDict).map Prod.fst).Nodup ∧
      kHash ∉ ([(kUser, escapeSlashes (ofStr "a/b"))] : FieldDict).map Prod.fst ∧
      dictGet? ([(kUser, escapeSlashes (ofStr "a/b"))] : FieldDict) kUser =
        some (escapeSlashes (ofStr "a/b")) ∧
      '\\' ∉ ofStr "a/b") ∧
    ((∃ p, verify_init_data
        (serializeCredential [(kUser, escapeSlashes (ofStr "a/b"))]
          (signFields (ofStr "T")
            (dictInsert [(kUser, escapeSlashes (ofStr "a/b"))] kUser (ofStr "a/b"))))
        (ofStr "T") = .success p) ∧
      verify_init_data
        (serializeCredential [(kUser, escapeSlashes (ofStr "a/b"))]
          (signFields (ofStr "T")
            (dictInsert [(kUser, escapeSlashes (ofStr "a/b"))] kUser (ofStr "a/b"))))
        (ofStr "T") ≠ .failure (ofStr "hash_mismatch")) :=
  ⟨⟨by decide, by decide, by decide, by decide⟩,
    claim_C2_amended (ofStr "T") (ofStr "a/b") [(kUser, escapeSlashes (ofStr "a/b"))]
      (by decide) (by decide) (by decide) (by decide)⟩

/-- C3 counterexample: in the concrete section 8 scenario the returned
field map still carries the profile field as its original JSON string —
the string value is not replaced by any decoded structure (the payload
value domain of the source is strings and the coerced integer). -/
theorem claim_C3_counterexample :
    verify_init_data (serializeCredential fields3 (signFields (ofStr "BOTTOKEN") fields3))
        (ofStr "BOTTOKEN") =
      .success [(ofStr "auth_date", PyVal.i 1700000000),
        (ofStr "query_id", PyVal.s (ofStr "AAA")), (kUser, PyVal.s userStr3)] ∧
    payloadGet? [(ofStr "auth_date", PyVal.i 1700000000),
        (ofStr "query_id", PyVal.s (ofStr "AAA")), (kUser, PyVal.s userStr3)] kUser =
      some (PyVal.s userStr3) := by
  constructor
  · unfold verify_init_data
    rw [verify_full_roundtrip (by decide) (by decide)]
    decide
  · decide

/-- C3 amended: the concrete scenario verifies successfully with
`auth_date` coerced to the integer 1700000000, `query_id` unchanged, and
`user` remaining the undecoded JSON string. -/
theorem claim_C3_amended :
    verify_init_data (serializeCredential fields3 (signFields (ofStr "BOTTOKEN") fields3))
        (ofStr "BOTTOKEN") = .success (coerceAuthDate fields3) ∧
    coerceAuthDate fields3 =
      [(ofStr "auth_date", PyVal.i 1700000000), (ofStr "query_id", PyVal.s (ofStr "AAA")),
       (kUser, PyVal.s userStr3)] := by
  constructor
  · unfold verify_init_data
    rw [verify_full_roundtrip (by decide) (by decide)]
  · decide

/-- C4 counterexample: a run that reaches the field-level recovery search
performs a digest comparison through plain `==`, not `hmac.compare_digest`
— not every comparison is constant-time. -/
theorem claim_C4_counterexample :
    verifyCompares (ofStr "user=x&hash=00") (ofStr "T") =
      [⟨.base, true⟩, ⟨.recovery, false⟩] ∧
    ((verifyCompares (ofStr "user=x&hash=00") (ofStr "T")).all
      (fun e => e.constantTime)) = false := by
  constructor <;> decide

/-- C4 amended: on every run, the base comparison of step 4 is the
constant-time `hmac.compare_digest`, while every comparison of the
recovery search of step 5 is the ordinary `==` — a comparison event is
constant-time exactly when its site is the base comparison. -/
theorem claim_C4_amended (init_data bot_token : PyStr) :
    ((verifyCompares init_data bot_token).all
      (fun e => e.constantTime == decide (e.site = CompareSite.base))) = true := by
  rw [List.all_eq_true]
  intro e he
  rw [verifyCompares_ct init_data bot_token e he]
  simp

/-- C5: canonicalization is order-independent — permuted field maps with
unique keys yield the same check string (after removing the signature
field) and the same digest, and permuting the field order in the raw
serialized credential likewise yields the same check string. -/
theorem claim_C5_order_independence (t : PyStr) (l1 l2 : FieldDict)
    (hp : l1.Perm l2) (hnod : (l1.map Prod.fst).Nodup) :
    _build_data_check_string_from_parsed (dictRemove l1 kHash) =
      _build_data_check_string_from_parsed (dictRemove l2 kHash) ∧
    _compute_hmac_hex t (_build_data_check_string_from_parsed (dictRemove l1 kHash)) =
      _compute_hmac_hex t (_build_data_check_string_from_parsed (dictRemove l2 kHash)) ∧
    _build_data_check_string_from_parsed
        (dictRemove (parse_init_data (serializeFields l1)) kHash) =
      _build_data_check_string_from_parsed
        (dictRemove (parse_init_data (serializeFields l2)) kHash) := by
  have hpr : (dictRemove l1 kHash).Perm (dictRemove l2 kHash) := hp.filter _
  have hnodr : ((dictRemove l1 kHash).map Prod.fst).Nodup :=
    ((List.filter_sublist l1).map Prod.fst).nodup hnod
  have hmain := build_dcs_perm hpr hnodr
  refine ⟨hmain, by rw [hmain], ?_⟩
  rw [parse_init_data_serializeFields hnod,
      parse_init_data_serializeFields ((hp.map Prod.fst).nodup_iff.1 hnod)]
  exact hmain

/-- Witness for C5 at two concrete permuted field maps. -/
theorem claim_C5_witness :
    (([(ofStr "b", ofStr "2"), (kHash, ofStr "zz"), (ofStr "a", ofStr "1")] :
        FieldDict).Perm
        [(ofStr "a", ofStr "1"), (ofStr "b", ofStr "2"), (kHash, ofStr "zz")] ∧
      (([(ofStr "b", ofStr "2"), (kHash, ofStr "zz"), (ofStr "a", ofStr "1")] :
        FieldDict).map Prod.fst).Nodup) ∧
    (_build_data_check_string_from_parsed
        (dictRemove [(ofStr "b", ofStr "2"), (kHash, ofStr "zz"), (ofStr "a", ofStr "1")]
          kHash) =
      _build_data_check_string_from_parsed
        (dictRemove [(ofStr "a", ofStr "1"), (ofStr "b", ofStr "2"), (kHash, ofStr "zz")]
          kHash) ∧
    _compute_hmac_hex (ofStr "T")
        (_build_data_check_string_from_parsed
          (dictRemove [(ofStr "b", ofStr "2"), (kHash, ofStr "zz"), (ofStr "a", ofStr "1")]
            kHash)) =
      _compute_hmac_hex (ofStr "T")
        (_build_data_check_string_from_parsed
          (dictRemove [(ofStr "a", ofStr "1"), (ofStr "b", ofStr "2"), (kHash, ofStr "zz")]
            kHash)) ∧
    _build_data_check_string_from_parsed
        (dictRemove (parse_init_data (serializeFields
          [(ofStr "b", ofStr "2"), (kHash, ofStr "zz"), (ofStr "a", ofStr "1")])) kHash) =
      _build_data_check_string_from_parsed
        (dictRemove (parse_init_data (serializeFields
          [(ofStr "a", ofStr "1"), (ofStr "b", ofStr "2"), (kHash, ofStr "zz")])) kHash)) :=
  ⟨⟨by decide, by decide⟩,
    claim_C5_order_independence (ofStr "T")
      [(ofStr "b", ofStr "2"), (kHash, ofStr "zz"), (ofStr "a", ofStr "1")]
      [(ofStr "a", ofStr "1"), (ofStr "b", ofStr "2"), (kHash, ofStr "zz")]
      (by decide) (by decide)⟩

/-- C6: the canonicalizer attempts the variants in the fixed priority
order raw, wrapper-decode, decode-once (only under the percent-encoded
marker condition), decode-twice, returning the first variant whose field
map contains the signature key, and otherwise the field map and tag of
the last attempted variant. -/
theorem claim_C6_variant_priority (raw : PyStr) :
    _try_parse_variants raw = parseVariantsSpec raw :=
  try_parse_variants_eq_spec raw

/-- C8 counterexample: the stored value of a field is not the raw value
substring of the credential — `parse_qsl` percent-decodes it (`%41`
becomes `A`). -/
theorem claim_C8_counterexample :
    parse_init_data (ofStr "a=%41&hash=x") =
      [(ofStr "a", ofStr "A"), (ofStr "hash", ofStr "x")] ∧
    ¬ dictGet? (parse_init_data (ofStr "a=%41&hash=x")) (ofStr "a") =
      some (ofStr "%41") := by
  constructor <;> decide

/-- C8 amended: the field map is produced by splitting on ampersands and
the first equals sign of each segment, with plus-to-space and
percent-decoding applied to every name and value; the raw value substring
is preserved exactly when it contains neither a percent sign nor a plus
sign. -/
theorem claim_C8_amended (l : List (PyStr × PyStr)) (hne : l ≠ [])
    (h : ∀ p ∈ l, ('&' ∉ p.1 ∧ '=' ∉ p.1) ∧ '&' ∉ p.2) :
    parse_init_data (joinWith ['&'] (l.map fun p => p.1 ++ '=' :: p.2)) =
      dictOf (l.map fun p =>
        (pyUnquote (plusToSpace p.1), pyUnquote (plusToSpace p.2))) ∧
    ((∀ p ∈ l, ('%' ∉ p.1 ∧ '+' ∉ p.1) ∧ '%' ∉ p.2 ∧ '+' ∉ p.2) →
      parse_init_data (joinWith ['&'] (l.map fun p => p.1 ++ '=' :: p.2)) = dictOf l) := by
  have hparse : parse_init_data (joinWith ['&'] (l.map fun p => p.1 ++ '=' :: p.2)) =
      dictOf (l.map fun p =>
        (pyUnquote (plusToSpace p.1), pyUnquote (plusToSpace p.2))) := by
    unfold parse_init_data
    rw [pyParseQsl_joinWith (by
          intro he
          rcases l with _ | ⟨p, rest⟩
          · exact hne rfl
          · simp at he)
        (by
          intro s hs
          rcases List.mem_map.1 hs with ⟨p, hp, rfl⟩
          refine ⟨by simp, ?_⟩
          intro hm
          rcases List.mem_append.1 hm with hma | hmb
          · exact ((h p hp).1).1 hma
          · rcases List.mem_cons.1 hmb with he | hmc
            · exact absurd he.symm (by decide)
            · exact (h p hp).2 hmc),
      filterMap_parseSeg_plain (fun p hp => ((h p hp).1).2)]
  refine ⟨hparse, ?_⟩
  intro hclean
  rw [hparse]
  apply congrArg
  have hid : ∀ p ∈ l,
      (fun p => (pyUnquote (plusToSpace p.1), pyUnquote (plusToSpace p.2))) p = id p := by
    intro p hp
    dsimp only
    rw [plusToSpace_id ((hclean p hp).1.2), plusToSpace_id (hclean p hp).2.2,
        pyUnquote_nopct (hclean p hp).1.1, pyUnquote_nopct (hclean p hp).2.1]
    rfl
  rw [List.map_congr_left hid, List.map_id]

/-- Witness for the amended C8 at a concrete pair list containing a
percent-encoded and a plus-bearing value (first conclusion) and at the
preservation side condition for its clean fields. -/
theorem claim_C8_witness :
    (([(ofStr "a", ofStr "%41"), (ofStr "b", ofStr "1+2")] :
        List (PyStr × PyStr)) ≠ [] ∧
      (∀ p ∈ ([(ofStr "a", ofStr "%41"), (ofStr "b", ofStr "1+2")] :
          List (PyStr × PyStr)), ('&' ∉ p.1 ∧ '=' ∉ p.1) ∧ '&' ∉ p.2)) ∧
    (parse_init_data (joinWith ['&']
        (([(ofStr "a", ofStr "%41"), (ofStr "b", ofStr "1+2")] :
          List (PyStr × PyStr)).map fun p => p.1 ++ '=' :: p.2)) =
      dictOf (([(ofStr "a", ofStr "%41"), (ofStr "b", ofStr "1+2")] :
          List (PyStr × PyStr)).map fun p =>
        (pyUnquote (plusToSpace p.1), pyUnquote (plusToSpace p.2))) ∧
    ((∀ p ∈ ([(ofStr "a", ofStr "%41"), (ofStr "b", ofStr "1+2")] :
        List (PyStr × PyStr)), ('%' ∉ p.1 ∧ '+' ∉ p.1) ∧ '%' ∉ p.2 ∧ '+' ∉ p.2) →
      parse_init_data (joinWith ['&']
        (([(ofStr "a", ofStr "%41"), (ofStr "b", ofStr "1+2")] :
          List (PyStr × PyStr)).map fun p => p.1 ++ '=' :: p.2)) =
      dictOf ([(ofStr "a", ofStr "%41"), (ofStr "b", ofStr "1+2")] :
        List (PyStr × PyStr)))) :=
  ⟨⟨by decide, by decide⟩,
    claim_C8_amended [(ofStr "a", ofStr "%41"), (ofStr "b", ofStr "1+2")]
      (by decide) (by decide)⟩

/-- C9 (code bug): on the `hash_mismatch` diagnostic path the core logs
the derived signing key — the full 64-character hexadecimal rendering of
SHA-256 of the issuer secret — unredacted, contradicting the redaction
requirement. -/
theorem claim_C9_secret_key_logged :
    LogEvent.warnSecretKeyHex (bytesToHexLower (sha256 (utf8Encode (ofStr "T")))) ∈
      verifyLogs (ofStr "a=b&hash=x") (ofStr "T") ∧
    (bytesToHexLower (sha256 (utf8Encode (ofStr "T")))).length = 64 := by
  constructor <;> decide

/-- C10: a credential whose signature field is present with an empty
value fails with the missing-signature reason, with no digest comparison
performed — identical to an absent signature field. -/
theorem claim_C10_empty_hash (init_data bot_token : PyStr)
    (h : dictGet? (_try_parse_variants init_data).1 kHash = some []) :
    verify_init_data init_data bot_token = .failure (ofStr "no hash in init_data") ∧
      verifyCompares init_data bot_token = [] :=
  verify_empty_hash init_data bot_token h

/-- Witness for C10 at a concrete credential with an empty `hash=`
field. -/
theorem claim_C10_witness :
    dictGet? (_try_parse_variants (ofStr "a=b&hash=")).1 kHash = some [] ∧
    (verify_init_data (ofStr "a=b&hash=") (ofStr "T") =
        .failure (ofStr "no hash in init_data") ∧
      verifyCompares (ofStr "a=b&hash=") (ofStr "T") = []) :=
  ⟨by decide, claim_C10_empty_hash (ofStr "a=b&hash=") (ofStr "T") (by decide)⟩
